import Mathlib

/-!
# Verification of the DeSteGo steganalysis core

A shallow embedding of the detection/extraction engine of the DeSteGo
repository (Go), together with proofs and refutations of the frozen claims
about it.  The embedding covers:

* the bit-plane model (`ChannelMask`, `BitOrder`, pixel grids) and the
  LSB extraction protocol (`extractData`, `extractLSBNoLength`) from
  `detect-stego/lsb_extractor.go`;
* the brute-force search (`bruteForceLSB`) from the same file;
* the SOS entropy-coded scan and `CheckAppendedData` from
  `detect-stego/jpeg_analyzer.go`;
* the per-channel LSB statistics from
  `detect-stego/statistical_analysis.go`;
* finding aggregation (`addFinding` from `detect-stego/types.go`) and
  the filtering pass (`filterFindings` from the scanner driver).

Machine integers are modelled as `Nat` with explicit `% 2^w` at the points
where the Go code truncates (`uint8` casts and shifts); real-valued
statistics are modelled over `ℝ`.
-/

namespace DeSteGo

/-! ## Bit-plane model (lsb_extractor.go lines 11-25)

`BitOrder` enumerates whether bits are read LSB side first or MSB side
first; `ChannelMask` gives the number of low-order bits consumed per
channel.  A pixel stores the four 8-bit channel samples; `rgba16` is the
16-bit expansion performed by Go's `image.Color.RGBA()` (`v * 0x101`),
and `hi8` is the `uint8(v >> 8)` truncation the extractor applies to it. -/

inductive BitOrder where
  | lsbFirst
  | msbFirst
deriving DecidableEq, Repr

structure ChannelMask where
  rBits : Nat
  gBits : Nat
  bBits : Nat
  aBits : Nat
deriving DecidableEq, Repr

def ChannelMask.total (m : ChannelMask) : Nat :=
  m.rBits + m.gBits + m.bBits + m.aBits

structure Pixel where
  r : Nat
  g : Nat
  b : Nat
  a : Nat
deriving DecidableEq, Repr

/-- 8-bit channel sample (pixel components are stored modulo 256). -/
def sample (v : Nat) : Nat := v % 256

/-- Go `image.Color.RGBA()` expands an 8-bit sample `v` to 16 bits as
`v * 0x101`. -/
def rgba16 (v : Nat) : Nat := 257 * sample v

/-- Go `uint8(w >> 8)`. -/
def hi8 (w : Nat) : Nat := (w / 256) % 256

@[simp] theorem hi8_rgba16 (v : Nat) : hi8 (rgba16 v) = v % 256 := by
  unfold hi8 rgba16 sample
  have h : v % 256 < 256 := Nat.mod_lt _ (by norm_num)
  have h2 : 257 * (v % 256) / 256 = v % 256 := by omega
  rw [h2, Nat.mod_mod_of_dvd _ (dvd_refl 256)]

@[simp] theorem rgba16_mod_two (v : Nat) : rgba16 v % 2 = v % 2 := by
  unfold rgba16 sample
  omega

/-! ## The raster-scan bit-stream

`chanBits` produces the bits contributed by one channel value: the Go
inner loop reads, for `i < bits`, the bit `(val >> i) & 1` (LSBFirst) or
`(val >> (bits-1-i)) & 1` (MSBFirst); a shift past the width of `uint8`
yields `0` in Go, which `Nat.testBit` on a value `< 256` reproduces.
`pixelBits` concatenates the four channels in the fixed R→G→B→A order and
`gridBits` walks the pixels in raster-scan order. -/

def chanBits (val bits : Nat) (order : BitOrder) : List Bool :=
  (List.range bits).map fun i =>
    match order with
    | .lsbFirst => Nat.testBit val i
    | .msbFirst => Nat.testBit val (bits - 1 - i)

def pixelBits (mask : ChannelMask) (order : BitOrder) (p : Pixel) : List Bool :=
  chanBits (hi8 (rgba16 p.r)) mask.rBits order ++
  chanBits (hi8 (rgba16 p.g)) mask.gBits order ++
  chanBits (hi8 (rgba16 p.b)) mask.bBits order ++
  chanBits (hi8 (rgba16 p.a)) mask.aBits order

def gridBits (mask : ChannelMask) (order : BitOrder) : List Pixel → List Bool
  | [] => []
  | p :: ps => pixelBits mask order p ++ gridBits mask order ps

@[simp] theorem gridBits_nil (mask : ChannelMask) (order : BitOrder) :
    gridBits mask order [] = [] := rfl

@[simp] theorem gridBits_cons (mask : ChannelMask) (order : BitOrder) (p : Pixel)
    (ps : List Pixel) :
    gridBits mask order (p :: ps) = pixelBits mask order p ++ gridBits mask order ps := rfl

/-! ## Bit/byte packing

The extractor accumulates bits into bytes by `dst = (dst << 1) | bit`
(most-significant bit first); over the four bytes of the length buffer this
is exactly a 32-bit big-endian shift register, so the whole accumulation is
one fold. -/

def bitsFold (acc : Nat) (l : List Bool) : Nat :=
  l.foldl (fun a b => 2 * a + b.toNat) acc

def bitsToNat (l : List Bool) : Nat := bitsFold 0 l

/-- Big-endian bit expansion: bit `i` of the result list is bit `k-1-i`
of `n`. -/
def natBitsK (k n : Nat) : List Bool :=
  (List.range k).map fun i => Nat.testBit n (k - 1 - i)

def byteBits (b : Nat) : List Bool := natBitsK 8 b

@[simp] theorem bitsFold_nil (acc : Nat) : bitsFold acc [] = acc := rfl

@[simp] theorem bitsFold_cons (acc : Nat) (b : Bool) (l : List Bool) :
    bitsFold acc (b :: l) = bitsFold (2 * acc + b.toNat) l := rfl

theorem bitsFold_append (acc : Nat) (l₁ l₂ : List Bool) :
    bitsFold acc (l₁ ++ l₂) = bitsFold (bitsFold acc l₁) l₂ := by
  simp [bitsFold, List.foldl_append]

@[simp] theorem length_natBitsK (k n : Nat) : (natBitsK k n).length = k := by
  simp [natBitsK]

@[simp] theorem length_byteBits (b : Nat) : (byteBits b).length = 8 := by
  simp [byteBits]

theorem natBitsK_succ (k n : Nat) :
    natBitsK (k + 1) n = Nat.testBit n k :: natBitsK k n := by
  unfold natBitsK
  rw [List.range_succ_eq_map, List.map_cons, List.map_map]
  have hhead : Nat.testBit n (k + 1 - 1 - 0) = Nat.testBit n k := by
    congr 1
  have htail :
      (List.range k).map ((fun i => Nat.testBit n (k + 1 - 1 - i)) ∘ (· + 1)) =
      (List.range k).map fun i => Nat.testBit n (k - 1 - i) := by
    apply List.map_congr_left
    intro i hi
    rw [List.mem_range] at hi
    simp only [Function.comp_apply]
    congr 1
    omega
  rw [hhead, htail]

theorem bitsFold_natBitsK (k acc n : Nat) :
    bitsFold acc (natBitsK k n) = acc * 2 ^ k + n % 2 ^ k := by
  induction k generalizing acc with
  | zero => simp [natBitsK, Nat.mod_one]
  | succ k ih =>
    rw [natBitsK_succ, bitsFold_cons, ih]
    have hbit : (Nat.testBit n k).toNat = n / 2 ^ k % 2 := by
      rw [Nat.testBit_to_div_mod]
      rcases Nat.mod_two_eq_zero_or_one (n / 2 ^ k) with h | h <;> simp [h]
    have hmod : n % 2 ^ (k + 1) = n % 2 ^ k + 2 ^ k * (n / 2 ^ k % 2) := by
      rw [pow_succ, Nat.mod_mul]
    rw [hbit, hmod]
    ring

theorem bitsToNat_natBitsK (k n : Nat) : bitsToNat (natBitsK k n) = n % 2 ^ k := by
  simp [bitsToNat, bitsFold_natBitsK]

theorem bitsFold_eq (l : List Bool) : ∀ acc, bitsFold acc l = acc * 2 ^ l.length + bitsToNat l := by
  induction l with
  | nil => intro acc; simp [bitsToNat]
  | cons b t ih =>
    intro acc
    have h1 : bitsToNat (b :: t) = b.toNat * 2 ^ t.length + bitsToNat t := by
      show bitsFold (2 * 0 + b.toNat) t = _
      rw [show 2 * 0 + b.toNat = b.toNat by ring, ih b.toNat]
    rw [bitsFold_cons, ih, h1, List.length_cons, pow_succ]
    ring

theorem bitsToNat_cons (b : Bool) (t : List Bool) :
    bitsToNat (b :: t) = b.toNat * 2 ^ t.length + bitsToNat t := by
  show bitsFold (2 * 0 + b.toNat) t = _
  rw [show 2 * 0 + b.toNat = b.toNat by ring, bitsFold_eq]

theorem bitsToNat_lt (l : List Bool) : bitsToNat l < 2 ^ l.length := by
  induction l with
  | nil => simp [bitsToNat, bitsFold]
  | cons b t ih =>
    rw [bitsToNat_cons, List.length_cons, pow_succ]
    have hb : b.toNat ≤ 1 := by cases b <;> simp
    have hp : 0 < 2 ^ t.length := pow_pos (by norm_num) _
    nlinarith

theorem natBitsK_mod (k v : Nat) : natBitsK k (v % 2 ^ k) = natBitsK k v := by
  unfold natBitsK
  apply List.map_congr_left
  intro i hi
  rw [List.mem_range] at hi
  rw [Nat.testBit_mod_two_pow]
  have : k - 1 - i < k := by omega
  simp [this]

theorem natBitsK_bitsToNat (l : List Bool) : natBitsK l.length (bitsToNat l) = l := by
  induction l with
  | nil => simp [natBitsK]
  | cons b t ih =>
    have hlt : bitsToNat t < 2 ^ t.length := bitsToNat_lt t
    have hp : 0 < 2 ^ t.length := pow_pos (by norm_num) _
    rw [List.length_cons, natBitsK_succ, bitsToNat_cons]
    have hdiv : (b.toNat * 2 ^ t.length + bitsToNat t) / 2 ^ t.length = b.toNat := by
      rw [Nat.mul_comm, Nat.mul_add_div hp, Nat.div_eq_of_lt hlt]
      omega
    have hhead : Nat.testBit (b.toNat * 2 ^ t.length + bitsToNat t) t.length = b := by
      rw [Nat.testBit_to_div_mod, hdiv]
      cases b <;> simp
    have htail : natBitsK t.length (b.toNat * 2 ^ t.length + bitsToNat t) = t := by
      rw [← natBitsK_mod]
      have hmod : (b.toNat * 2 ^ t.length + bitsToNat t) % 2 ^ t.length = bitsToNat t := by
        rw [Nat.mul_comm, Nat.add_comm, Nat.add_mul_mod_self_left]
        exact Nat.mod_eq_of_lt hlt
      rw [hmod]
      exact ih
    rw [hhead, htail]

/-! ## Length-prefixed extraction (`ExtractData`, lsb_extractor.go lines 36-190)

`readLengthLoop` is the 32-bit length pass.  The Go loop checks
`lengthBitsRead >= 32` *before* consuming a bit — at the top of each pixel
iteration and of each channel-bit iteration — and the `foundLength` flag is
set only by such a check.  Since every pixel contributes `mask.total ≥ 1`
bits, a check fires after the 32nd bit exactly when a 33rd stream bit
exists; if the stream ends at or before 32 bits the loops exit with
`foundLength == false` and the function reports the capacity error.
`readLengthLoop` consumes the raster-scan bit list one bit at a time with
the same check-before-read structure, so it returns `none` exactly when
the stream has at most 32 bits.

The payload pass re-walks the same stream, skipping the first 32 bits
(`bitsSkipped < skipTarget`) and reading `8 * length` further bits packed
MSB-first into bytes (`dataBuf[i] = dataBuf[i] << 1 | bit`), failing when
the stream is exhausted early; this is `(bits.drop 32).take (8*length)`
plus a length check, packed by `fullChunks`. -/

def readLengthLoop : List Bool → Nat → Nat → Option Nat
  | [], _, _ => none
  | b :: rest, bitsRead, acc =>
    if 32 ≤ bitsRead then some acc
    else readLengthLoop rest (bitsRead + 1) (2 * acc + b.toNat)

/-- Pack a bit list into bytes, 8 bits per byte MSB-first, dropping any
trailing partial chunk. -/
def fullChunks : List Bool → List Nat
  | b1 :: b2 :: b3 :: b4 :: b5 :: b6 :: b7 :: b8 :: rest =>
      bitsToNat [b1, b2, b3, b4, b5, b6, b7, b8] :: fullChunks rest
  | _ => []

/-- The trailing partial chunk (fewer than 8 bits) left over by `fullChunks`. -/
def chunkRest : List Bool → List Bool
  | _ :: _ :: _ :: _ :: _ :: _ :: _ :: _ :: rest => chunkRest rest
  | bits => bits

theorem fullChunks_step (bits : List Bool) (h : 8 ≤ bits.length) :
    fullChunks bits = bitsToNat (bits.take 8) :: fullChunks (bits.drop 8) := by
  match bits, h with
  | b1 :: b2 :: b3 :: b4 :: b5 :: b6 :: b7 :: b8 :: rest, _ => rfl

theorem fullChunks_small (bits : List Bool) (h : bits.length < 8) :
    fullChunks bits = [] := by
  match bits, h with
  | [], _ => rfl
  | [b1], _ => rfl
  | [b1, b2], _ => rfl
  | [b1, b2, b3], _ => rfl
  | [b1, b2, b3, b4], _ => rfl
  | [b1, b2, b3, b4, b5], _ => rfl
  | [b1, b2, b3, b4, b5, b6], _ => rfl
  | [b1, b2, b3, b4, b5, b6, b7], _ => rfl

theorem chunkRest_step (bits : List Bool) (h : 8 ≤ bits.length) :
    chunkRest bits = chunkRest (bits.drop 8) := by
  match bits, h with
  | b1 :: b2 :: b3 :: b4 :: b5 :: b6 :: b7 :: b8 :: rest, _ => rfl

theorem chunkRest_small (bits : List Bool) (h : bits.length < 8) :
    chunkRest bits = bits := by
  match bits, h with
  | [], _ => rfl
  | [b1], _ => rfl
  | [b1, b2], _ => rfl
  | [b1, b2, b3], _ => rfl
  | [b1, b2, b3, b4], _ => rfl
  | [b1, b2, b3, b4, b5], _ => rfl
  | [b1, b2, b3, b4, b5, b6], _ => rfl
  | [b1, b2, b3, b4, b5, b6, b7], _ => rfl

inductive ExtractErr where
  | zeroMask
  | notEnoughPixels
  | invalidLength
  | notEnoughBits
deriving DecidableEq, Repr

/-- `ExtractData(img, mask, bitOrder)`: read a 32-bit big-endian length,
validate `0 < length ≤ 100_000_000`, then read `length` bytes from the
same bit-stream. -/
def extractData (mask : ChannelMask) (order : BitOrder) (pixels : List Pixel) :
    Except ExtractErr (List Nat) :=
  if mask.total = 0 then .error .zeroMask
  else
    let bits := gridBits mask order pixels
    match readLengthLoop bits 0 0 with
    | none => .error .notEnoughPixels
    | some length =>
      if length = 0 ∨ 100000000 < length then .error .invalidLength
      else
        let payloadBits := (bits.drop 32).take (8 * length)
        if payloadBits.length < 8 * length then .error .notEnoughBits
        else .ok (fullChunks payloadBits)

theorem readLengthLoop_short (bits : List Bool) :
    ∀ n acc, bits.length + n ≤ 32 → readLengthLoop bits n acc = none := by
  induction bits with
  | nil => intro n acc _; rfl
  | cons b rest ih =>
    intro n acc h
    rw [List.length_cons] at h
    have hn : ¬ 32 ≤ n := by omega
    simp only [readLengthLoop, if_neg hn]
    exact ih (n + 1) _ (by omega)

theorem readLengthLoop_found (bits : List Bool) :
    ∀ n acc, n ≤ 32 → 32 < bits.length + n →
      readLengthLoop bits n acc = some (bitsFold acc (bits.take (32 - n))) := by
  induction bits with
  | nil => intro n acc _ h; simp at h; omega
  | cons b rest ih =>
    intro n acc hn h
    by_cases h32 : 32 ≤ n
    · have : n = 32 := by omega
      subst this
      simp [readLengthLoop]
    · rw [List.length_cons] at h
      simp only [readLengthLoop, if_neg h32]
      rw [ih (n + 1) _ (by omega) (by omega)]
      have hne : 32 - n = (32 - (n + 1)) + 1 := by omega
      rw [hne]
      rfl

theorem readLengthLoop_spec (bits : List Bool) (h : 32 < bits.length) :
    readLengthLoop bits 0 0 = some (bitsToNat (bits.take 32)) := by
  have := readLengthLoop_found bits 0 0 (by omega) (by omega)
  simpa [bitsToNat] using this

theorem readLengthLoop_none (bits : List Bool) (h : bits.length ≤ 32) :
    readLengthLoop bits 0 0 = none :=
  readLengthLoop_short bits 0 0 (by omega)

/-! ## Embedding a payload (claim C1 harness)

`mkChanVal` builds a channel value whose extracted bits (`chanBits`) are a
prescribed list, for either bit order; `embedGrid` lays an arbitrary bit
list out over a minimal pixel grid so that its raster-scan bit-stream is
that list (padded with `false` to a whole number of pixels).
`lengthPrefixedBits` is the length-prefixed framing of a payload: the
32-bit big-endian byte length followed by the payload bytes MSB-first. -/

def mkChanVal (bs : List Bool) : BitOrder → Nat
  | .msbFirst => bitsToNat bs
  | .lsbFirst => bitsToNat bs.reverse

def mkPixel (mask : ChannelMask) (order : BitOrder) (c : List Bool) : Pixel :=
  { r := mkChanVal (c.take mask.rBits) order
  , g := mkChanVal ((c.drop mask.rBits).take mask.gBits) order
  , b := mkChanVal (((c.drop mask.rBits).drop mask.gBits).take mask.bBits) order
  , a := mkChanVal ((((c.drop mask.rBits).drop mask.gBits).drop mask.bBits).take mask.aBits) order }

def padTo (t : Nat) (l : List Bool) : List Bool := l ++ List.replicate (t - l.length) false

def embedAux (mask : ChannelMask) (order : BitOrder) : Nat → List Bool → List Pixel
  | 0, _ => []
  | n + 1, L =>
      mkPixel mask order (padTo mask.total (L.take mask.total)) ::
        embedAux mask order n (L.drop mask.total)

def listByteBits : List Nat → List Bool
  | [] => []
  | b :: t => byteBits b ++ listByteBits t

def lengthPrefixedBits (P : List Nat) : List Bool :=
  natBitsK 32 P.length ++ listByteBits P

def embedGrid (mask : ChannelMask) (order : BitOrder) (P : List Nat) : List Pixel :=
  embedAux mask order
    (((lengthPrefixedBits P).length + mask.total - 1) / mask.total)
    (lengthPrefixedBits P)

theorem length_listByteBits (P : List Nat) : (listByteBits P).length = 8 * P.length := by
  induction P with
  | nil => rfl
  | cons b t ih => simp [listByteBits, ih]; ring

theorem reverse_natBitsK (k v : Nat) :
    (natBitsK k v).reverse = (List.range k).map (Nat.testBit v) := by
  induction k with
  | zero => rfl
  | succ k ih =>
    rw [natBitsK_succ, List.reverse_cons, ih]
    rw [show List.range (k + 1) = List.range k ++ [k] by
      simpa using List.range_succ k]
    simp

theorem chanBits_msb (v k : Nat) : chanBits v k .msbFirst = natBitsK k v := rfl

theorem chanBits_lsb (v k : Nat) :
    chanBits v k .lsbFirst = (natBitsK k v).reverse := by
  rw [reverse_natBitsK]
  rfl

theorem mkChanVal_lt (bs : List Bool) (order : BitOrder) :
    mkChanVal bs order < 2 ^ bs.length := by
  cases order with
  | msbFirst => exact bitsToNat_lt bs
  | lsbFirst =>
    have := bitsToNat_lt bs.reverse
    rwa [List.length_reverse] at this

theorem chanBits_mkChanVal (bs : List Bool) (order : BitOrder) (h8 : bs.length ≤ 8) :
    chanBits (hi8 (rgba16 (mkChanVal bs order))) bs.length order = bs := by
  have hlt : mkChanVal bs order < 256 := by
    calc mkChanVal bs order < 2 ^ bs.length := mkChanVal_lt bs order
    _ ≤ 2 ^ 8 := Nat.pow_le_pow_right (by norm_num) h8
    _ = 256 := by norm_num
  have hmod : mkChanVal bs order % 256 = mkChanVal bs order := Nat.mod_eq_of_lt hlt
  cases order with
  | msbFirst =>
    rw [chanBits_msb, hi8_rgba16, hmod]
    show natBitsK bs.length (bitsToNat bs) = bs
    exact natBitsK_bitsToNat bs
  | lsbFirst =>
    rw [chanBits_lsb, hi8_rgba16, hmod]
    show (natBitsK bs.length (bitsToNat bs.reverse)).reverse = bs
    rw [show bs.length = bs.reverse.length from (List.length_reverse bs).symm,
      natBitsK_bitsToNat, List.reverse_reverse]

theorem pixelBits_mkPixel (mask : ChannelMask) (order : BitOrder) (c : List Bool)
    (hlen : c.length = mask.total)
    (hr : mask.rBits ≤ 8) (hg : mask.gBits ≤ 8) (hb : mask.bBits ≤ 8) (ha : mask.aBits ≤ 8) :
    pixelBits mask order (mkPixel mask order c) = c := by
  have htot : mask.total = mask.rBits + mask.gBits + mask.bBits + mask.aBits := rfl
  have l1 : (c.take mask.rBits).length = mask.rBits := by
    rw [List.length_take]; omega
  have l2 : ((c.drop mask.rBits).take mask.gBits).length = mask.gBits := by
    rw [List.length_take, List.length_drop]; omega
  have l3 : (((c.drop mask.rBits).drop mask.gBits).take mask.bBits).length = mask.bBits := by
    rw [List.length_take, List.length_drop, List.length_drop]; omega
  have l4 : ((((c.drop mask.rBits).drop mask.gBits).drop mask.bBits).take mask.aBits).length
      = mask.aBits := by
    rw [List.length_take, List.length_drop, List.length_drop, List.length_drop]; omega
  have e1 := chanBits_mkChanVal (c.take mask.rBits) order (by rw [l1]; exact hr)
  have e2 := chanBits_mkChanVal ((c.drop mask.rBits).take mask.gBits) order (by rw [l2]; exact hg)
  have e3 := chanBits_mkChanVal (((c.drop mask.rBits).drop mask.gBits).take mask.bBits) order
    (by rw [l3]; exact hb)
  have e4 := chanBits_mkChanVal
    ((((c.drop mask.rBits).drop mask.gBits).drop mask.bBits).take mask.aBits) order
    (by rw [l4]; exact ha)
  rw [l1] at e1; rw [l2] at e2; rw [l3] at e3; rw [l4] at e4
  show chanBits (hi8 (rgba16 (mkPixel mask order c).r)) mask.rBits order ++
       chanBits (hi8 (rgba16 (mkPixel mask order c).g)) mask.gBits order ++
       chanBits (hi8 (rgba16 (mkPixel mask order c).b)) mask.bBits order ++
       chanBits (hi8 (rgba16 (mkPixel mask order c).a)) mask.aBits order = c
  rw [show (mkPixel mask order c).r = mkChanVal (c.take mask.rBits) order from rfl]
  rw [show (mkPixel mask order c).g = mkChanVal ((c.drop mask.rBits).take mask.gBits) order
    from rfl]
  rw [show (mkPixel mask order c).b
    = mkChanVal (((c.drop mask.rBits).drop mask.gBits).take mask.bBits) order from rfl]
  rw [show (mkPixel mask order c).a
    = mkChanVal ((((c.drop mask.rBits).drop mask.gBits).drop mask.bBits).take mask.aBits) order
    from rfl]
  rw [e1, e2, e3, e4]
  have h4 : (((c.drop mask.rBits).drop mask.gBits).drop mask.bBits).take mask.aBits
      = ((c.drop mask.rBits).drop mask.gBits).drop mask.bBits := by
    apply List.take_of_length_le
    rw [List.length_drop, List.length_drop, List.length_drop]; omega
  rw [h4, List.append_assoc, List.append_assoc, List.take_append_drop,
    List.take_append_drop, List.take_append_drop]

theorem gridBits_embedAux (mask : ChannelMask) (order : BitOrder)
    (hr : mask.rBits ≤ 8) (hg : mask.gBits ≤ 8) (hb : mask.bBits ≤ 8) (ha : mask.aBits ≤ 8) :
    ∀ (n : Nat) (L : List Bool), L.length ≤ n * mask.total →
      gridBits mask order (embedAux mask order n L) =
        L ++ List.replicate (n * mask.total - L.length) false := by
  intro n
  induction n with
  | zero =>
    intro L hL
    have : L = [] := List.eq_nil_of_length_eq_zero (by omega)
    subst this
    simp [embedAux]
  | succ n ih =>
    intro L hL
    have hpadlen : (padTo mask.total (L.take mask.total)).length = mask.total := by
      unfold padTo
      rw [List.length_append, List.length_replicate, List.length_take]
      omega
    rw [show embedAux mask order (n + 1) L =
        mkPixel mask order (padTo mask.total (L.take mask.total)) ::
          embedAux mask order n (L.drop mask.total) from rfl,
      gridBits_cons,
      pixelBits_mkPixel mask order _ hpadlen hr hg hb ha,
      ih (L.drop mask.total) (by rw [List.length_drop]; rw [Nat.succ_mul] at hL; omega)]
    rw [List.length_drop]
    by_cases hc : mask.total ≤ L.length
    · have : padTo mask.total (L.take mask.total) = L.take mask.total := by
        unfold padTo
        rw [List.length_take, min_eq_left hc, Nat.sub_self]
        simp
      rw [this, ← List.append_assoc, List.take_append_drop]
      have : (n + 1) * mask.total - L.length = n * mask.total - (L.length - mask.total) := by
        rw [Nat.succ_mul]; omega
      rw [this]
    · push_neg at hc
      have ht : L.take mask.total = L := List.take_of_length_le (by omega)
      have hd : L.drop mask.total = [] := List.drop_eq_nil_of_le (by omega)
      rw [ht, hd]
      unfold padTo
      rw [List.append_assoc, List.nil_append, ← List.replicate_add]
      congr 2
      rw [Nat.succ_mul]
      omega

theorem extractData_some (mask : ChannelMask) (order : BitOrder) (pixels : List Pixel)
    (N : Nat) (htot : ¬ mask.total = 0)
    (hN : readLengthLoop (gridBits mask order pixels) 0 0 = some N) :
    extractData mask order pixels =
      (if N = 0 ∨ 100000000 < N then .error .invalidLength
       else if (((gridBits mask order pixels).drop 32).take (8 * N)).length < 8 * N then
         .error .notEnoughBits
       else .ok (fullChunks (((gridBits mask order pixels).drop 32).take (8 * N)))) := by
  unfold extractData
  rw [if_neg htot]
  dsimp only
  rw [hN]

theorem fullChunks_listByteBits (P : List Nat) (hbytes : ∀ b ∈ P, b < 256) :
    fullChunks (listByteBits P) = P := by
  induction P with
  | nil => rfl
  | cons b t ih =>
    have hb : b < 256 := hbytes b (by simp)
    have hstep : listByteBits (b :: t) = byteBits b ++ listByteBits t := rfl
    rw [hstep, fullChunks_step _ (by rw [List.length_append, length_byteBits]; omega)]
    rw [show (8:Nat) = (byteBits b).length from (length_byteBits b).symm,
      List.take_left, List.drop_left]
    rw [ih (fun x hx => hbytes x (by simp [hx]))]
    show bitsToNat (natBitsK 8 b) :: t = b :: t
    rw [bitsToNat_natBitsK]
    rw [Nat.mod_eq_of_lt (by norm_num [hb] : b < 2 ^ 8)]

/-- C1 (amended): round-trip of the length-prefixed protocol for a
*nonempty* payload within the length bound. -/
theorem c1_roundtrip (P : List Nat) (mask : ChannelMask) (order : BitOrder)
    (hP : P ≠ []) (hlen : P.length ≤ 100000000) (hbytes : ∀ b ∈ P, b < 256)
    (hr : mask.rBits ≤ 8) (hg : mask.gBits ≤ 8) (hb : mask.bBits ≤ 8) (ha : mask.aBits ≤ 8)
    (htot : 0 < mask.total) :
    extractData mask order (embedGrid mask order P) = .ok P := by
  have hPpos : 1 ≤ P.length := by
    rcases P with _ | ⟨x, xs⟩
    · exact absurd rfl hP
    · simp
  have hLlen : (lengthPrefixedBits P).length = 32 + 8 * P.length := by
    unfold lengthPrefixedBits
    rw [List.length_append, length_natBitsK, length_listByteBits]
  have hcover : (lengthPrefixedBits P).length ≤
      (((lengthPrefixedBits P).length + mask.total - 1) / mask.total) * mask.total := by
    have hdm := Nat.div_add_mod ((lengthPrefixedBits P).length + mask.total - 1) mask.total
    have hmlt : ((lengthPrefixedBits P).length + mask.total - 1) % mask.total < mask.total :=
      Nat.mod_lt _ htot
    rw [mul_comm]
    generalize hq : mask.total *
      (((lengthPrefixedBits P).length + mask.total - 1) / mask.total) = q at hdm
    omega
  have hgb : gridBits mask order (embedGrid mask order P) =
      lengthPrefixedBits P ++
        List.replicate
          ((((lengthPrefixedBits P).length + mask.total - 1) / mask.total) * mask.total -
            (lengthPrefixedBits P).length) false :=
    gridBits_embedAux mask order hr hg hb ha _ _ hcover
  have h32 : 32 < (gridBits mask order (embedGrid mask order P)).length := by
    rw [hgb, List.length_append]
    omega
  have htake : (gridBits mask order (embedGrid mask order P)).take 32 = natBitsK 32 P.length := by
    rw [hgb]
    unfold lengthPrefixedBits
    rw [List.append_assoc]
    rw [List.take_append_of_le_length (by rw [length_natBitsK])]
    exact List.take_of_length_le (by rw [length_natBitsK])
  have hNlt : P.length < 2 ^ 32 := lt_of_le_of_lt hlen (by norm_num)
  have hRLL : readLengthLoop (gridBits mask order (embedGrid mask order P)) 0 0
      = some P.length := by
    rw [readLengthLoop_spec _ h32, htake, bitsToNat_natBitsK, Nat.mod_eq_of_lt hNlt]
  rw [extractData_some mask order _ P.length (by omega) hRLL]
  rw [if_neg (by omega : ¬ (P.length = 0 ∨ 100000000 < P.length))]
  have hdrop : (gridBits mask order (embedGrid mask order P)).drop 32 =
      listByteBits P ++ List.replicate
        ((((lengthPrefixedBits P).length + mask.total - 1) / mask.total) * mask.total -
          (lengthPrefixedBits P).length) false := by
    rw [hgb]
    conv_lhs => rw [lengthPrefixedBits, List.append_assoc]
    have h1 := List.drop_left (natBitsK 32 P.length)
      (listByteBits P ++ List.replicate
        ((((lengthPrefixedBits P).length + mask.total - 1) / mask.total) * mask.total -
          (lengthPrefixedBits P).length) false)
    rw [length_natBitsK] at h1
    exact h1
  have htakeP : ((gridBits mask order (embedGrid mask order P)).drop 32).take (8 * P.length)
      = listByteBits P := by
    rw [hdrop]
    have h1 := List.take_left (listByteBits P)
      (List.replicate
        ((((lengthPrefixedBits P).length + mask.total - 1) / mask.total) * mask.total -
          (lengthPrefixedBits P).length) false)
    rw [length_listByteBits] at h1
    exact h1
  rw [htakeP, length_listByteBits, if_neg (lt_irrefl _), fullChunks_listByteBits P hbytes]

/-- C1 counterexample: for the empty payload the length header is 0 and
`ExtractData` errors instead of returning the payload.  The 40-pixel
all-zero grid is exactly the length-prefixed embedding of the empty payload
(header `0x00000000`, no payload bits) with spare capacity. -/
theorem c1_counterexample :
    (gridBits ⟨1, 0, 0, 0⟩ .lsbFirst (List.replicate 40 ⟨0, 0, 0, 0⟩)).take 32
        = lengthPrefixedBits [] ∧
    extractData ⟨1, 0, 0, 0⟩ .lsbFirst (List.replicate 40 ⟨0, 0, 0, 0⟩)
        = .error .invalidLength ∧
    extractData ⟨1, 0, 0, 0⟩ .lsbFirst (List.replicate 40 ⟨0, 0, 0, 0⟩) ≠ .ok [] := by
  refine ⟨by decide, rfl, fun hcontra => ?_⟩
  have h1 : extractData ⟨1, 0, 0, 0⟩ .lsbFirst (List.replicate 40 ⟨0, 0, 0, 0⟩)
      = Except.error ExtractErr.invalidLength := rfl
  rw [h1] at hcontra
  exact Except.noConfusion hcontra

/-- C1 witness: a concrete round trip of the payload "hello" through the
R-channel LSB plane. -/
theorem c1_witness :
    ([104, 101, 108, 108, 111] : List Nat) ≠ [] ∧
    extractData ⟨1, 0, 0, 0⟩ .lsbFirst
        (embedGrid ⟨1, 0, 0, 0⟩ .lsbFirst [104, 101, 108, 108, 111])
      = .ok [104, 101, 108, 108, 111] :=
  ⟨by decide,
    c1_roundtrip [104, 101, 108, 108, 111] ⟨1, 0, 0, 0⟩ .lsbFirst
      (by decide) (by norm_num) (by decide) (by decide) (by decide) (by decide) (by decide)
      (by decide)⟩

/-- C2 (amended): on a stream of strictly more than 32 bits whose first
32 bits decode to 0 or to a value above 100,000,000, `ExtractData` fails
with the invalid-length error. -/
theorem c2_invalid_length (mask : ChannelMask) (order : BitOrder) (pixels : List Pixel)
    (htot : mask.total ≠ 0)
    (h32 : 32 < (gridBits mask order pixels).length)
    (hN : bitsToNat ((gridBits mask order pixels).take 32) = 0 ∨
          100000000 < bitsToNat ((gridBits mask order pixels).take 32)) :
    extractData mask order pixels = .error .invalidLength := by
  rw [extractData_some mask order pixels _ htot (readLengthLoop_spec _ h32)]
  rw [if_pos hN]

/-- C2 counterexample: a grid holding exactly 32 stream bits that decode to
length 0 fails with the capacity error ("not enough pixels"), not with the
invalid-length error the claim requires. -/
theorem c2_counterexample :
    bitsToNat ((gridBits ⟨1, 0, 0, 0⟩ .lsbFirst (List.replicate 32 ⟨0, 0, 0, 0⟩)).take 32) = 0 ∧
    (gridBits ⟨1, 0, 0, 0⟩ .lsbFirst (List.replicate 32 ⟨0, 0, 0, 0⟩)).length = 32 ∧
    extractData ⟨1, 0, 0, 0⟩ .lsbFirst (List.replicate 32 ⟨0, 0, 0, 0⟩)
        = .error .notEnoughPixels ∧
    extractData ⟨1, 0, 0, 0⟩ .lsbFirst (List.replicate 32 ⟨0, 0, 0, 0⟩)
        ≠ .error .invalidLength := by
  refine ⟨by decide, by decide, rfl, fun hcontra => ?_⟩
  have h1 : extractData ⟨1, 0, 0, 0⟩ .lsbFirst (List.replicate 32 ⟨0, 0, 0, 0⟩)
      = Except.error ExtractErr.notEnoughPixels := rfl
  rw [h1] at hcontra
  exact ExtractErr.noConfusion (Except.error.inj hcontra)

/-- C2 witness: a 33-pixel all-zero grid decodes header 0 and fails
invalid-length. -/
theorem c2_witness :
    extractData ⟨1, 0, 0, 0⟩ .lsbFirst (List.replicate 33 ⟨0, 0, 0, 0⟩)
      = .error .invalidLength :=
  c2_invalid_length ⟨1, 0, 0, 0⟩ .lsbFirst (List.replicate 33 ⟨0, 0, 0, 0⟩)
    (by decide) (by decide) (Or.inl (by decide))

/-! ## No-length extraction (`ExtractLSBNoLength`, lsb_extractor.go lines 195-280)

`noLenLoop` is the bit loop: it shifts each stream bit into `currentByte`
(a `uint8`, hence the `% 256`), emits the byte when 8 bits have
accumulated, and counts consecutive zero bytes; at the 20th consecutive
zero byte it returns the emitted bytes minus the final 20 (the Go code's
`endPos <= 0` branch returns `nil`, which coincides with taking a prefix
of length 0).  After the loop, a leftover partial byte is emitted aligned
to the most significant bits (`currentByte << (8 - bitCount)`), and
trailing zero bytes are stripped. -/

inductive NoLenOut where
  | early (data : List Nat)
  | done (emitted : List Nat) (cur : Nat) (bitCount : Nat)
deriving DecidableEq, Repr

def noLenLoop : List Bool → Nat → Nat → Nat → List Nat → NoLenOut
  | [], cur, bitCount, _, emitted => .done emitted cur bitCount
  | b :: rest, cur, bitCount, zeroCount, emitted =>
    let cur2 := (2 * cur + b.toNat) % 256
    if bitCount + 1 = 8 then
      let emitted2 := emitted ++ [cur2]
      if cur2 = 0 then
        if 20 ≤ zeroCount + 1 then .early (emitted2.take (emitted2.length - 20))
        else noLenLoop rest 0 0 (zeroCount + 1) emitted2
      else noLenLoop rest 0 0 0 emitted2
    else noLenLoop rest cur2 (bitCount + 1) zeroCount emitted

/-- Strip trailing zero bytes (the backward scan at the end of
`ExtractLSBNoLength`). -/
def stripZeros (l : List Nat) : List Nat :=
  ((l.reverse).dropWhile (fun x => x == 0)).reverse

/-- `ExtractLSBNoLength(img, mask, bitOrder)`. -/
def extractLSBNoLength (mask : ChannelMask) (order : BitOrder) (pixels : List Pixel) :
    List Nat :=
  match noLenLoop (gridBits mask order pixels) 0 0 0 [] with
  | .early d => d
  | .done emitted cur bitCount =>
      stripZeros (if bitCount = 0 then emitted
                  else emitted ++ [cur * 2 ^ (8 - bitCount) % 256])

/-- The byte sequence obtained by packing the raster-scan bit-stream into
bytes MSB-first, the trailing partial byte (if any) left-aligned — the
"packed bytes" of the stream. -/
def packBytes (bits : List Bool) : List Nat :=
  fullChunks bits ++
    (if (chunkRest bits).length = 0 then []
     else [bitsToNat (chunkRest bits) * 2 ^ (8 - (chunkRest bits).length) % 256])

/-- Byte-level view of the zero-run scan performed by `noLenLoop`. -/
inductive ByteOut where
  | bEarly (data : List Nat)
  | bDone (emitted : List Nat)
deriving DecidableEq, Repr

def byteLoop : List Nat → Nat → List Nat → ByteOut
  | [], _, emitted => .bDone emitted
  | b :: rest, zeroCount, emitted =>
    let emitted2 := emitted ++ [b]
    if b = 0 then
      if 20 ≤ zeroCount + 1 then .bEarly (emitted2.take (emitted2.length - 20))
      else byteLoop rest (zeroCount + 1) emitted2
    else byteLoop rest 0 emitted2

/-- Index (into the byte list) at which the zero counter, started at
`zeroCount`, first reaches 20. -/
def firstFire : List Nat → Nat → Option Nat
  | [], _ => none
  | b :: rest, zeroCount =>
    if b = 0 then
      if 20 ≤ zeroCount + 1 then some 0
      else (firstFire rest (zeroCount + 1)).map (· + 1)
    else (firstFire rest 0).map (· + 1)

/-- A run of 20 consecutive zero bytes starts at index `j`. -/
def runAt (l : List Nat) (j : Nat) : Prop :=
  (l.drop j).take 20 = List.replicate 20 0

instance (l : List Nat) (j : Nat) : Decidable (runAt l j) :=
  inferInstanceAs (Decidable ((l.drop j).take 20 = List.replicate 20 0))

theorem byteLoop_cons (b : Nat) (rest : List Nat) (zc : Nat) (em : List Nat) :
    byteLoop (b :: rest) zc em =
      if b = 0 then
        if 20 ≤ zc + 1 then .bEarly ((em ++ [b]).take ((em ++ [b]).length - 20))
        else byteLoop rest (zc + 1) (em ++ [b])
      else byteLoop rest 0 (em ++ [b]) := rfl

theorem noLenLoop_consumeTail (t : List Bool) :
    ∀ (cur bc zc : Nat) (em : List Nat), bc + t.length < 8 → cur < 2 ^ bc →
      noLenLoop t cur bc zc em = .done em (bitsFold cur t) (bc + t.length) := by
  induction t with
  | nil =>
    intro cur bc zc em _ _
    simp [noLenLoop]
  | cons b t ih =>
    intro cur bc zc em hlen hcur
    rw [List.length_cons] at hlen
    have hb1 : ¬ (bc + 1 = 8) := by omega
    have hble : b.toNat ≤ 1 := by cases b <;> simp
    have hcb : cur < 64 := by
      have h1 : (2:Nat) ^ bc ≤ 64 := by
        calc (2:Nat) ^ bc ≤ 2 ^ 6 := Nat.pow_le_pow_right (by norm_num) (by omega)
        _ = 64 := by norm_num
      omega
    have hsmall : 2 * cur + b.toNat < 256 := by omega
    simp only [noLenLoop]
    rw [if_neg hb1]
    rw [Nat.mod_eq_of_lt hsmall]
    rw [ih (2 * cur + b.toNat) (bc + 1) zc em (by omega)
      (by rw [pow_succ]; omega)]
    rw [bitsFold_cons]
    congr 1
    rw [List.length_cons]
    omega

theorem noLenLoop_consumeByte (c : List Bool) (hne : c ≠ []) :
    ∀ (rest : List Bool) (cur bc zc : Nat) (em : List Nat),
      bc + c.length = 8 → cur < 2 ^ bc →
      noLenLoop (c ++ rest) cur bc zc em =
        (if bitsFold cur c = 0 then
          (if 20 ≤ zc + 1 then
            .early ((em ++ [bitsFold cur c]).take ((em ++ [bitsFold cur c]).length - 20))
           else noLenLoop rest 0 0 (zc + 1) (em ++ [bitsFold cur c]))
         else noLenLoop rest 0 0 0 (em ++ [bitsFold cur c])) := by
  induction c with
  | nil => exact absurd rfl hne
  | cons b c2 ih =>
    intro rest cur bc zc em hlen hcur
    have hble : b.toNat ≤ 1 := by cases b <;> simp
    rcases eq_or_ne c2 [] with h2 | h2
    · subst h2
      simp only [List.length_cons, List.length_nil] at hlen
      have hbc : bc = 7 := by omega
      subst hbc
      have hcb : cur < 128 := by
        have h1 : (2:Nat) ^ 7 = 128 := by norm_num
        omega
      have hsmall : 2 * cur + b.toNat < 256 := by omega
      rw [List.cons_append, List.nil_append]
      simp only [noLenLoop]
      rw [Nat.mod_eq_of_lt hsmall]
      simp only [if_true]
      rfl
    · rw [List.length_cons] at hlen
      have hlen2 : 1 ≤ c2.length := by
        rcases c2 with _ | _
        · exact absurd rfl h2
        · simp
      have hb1 : ¬ (bc + 1 = 8) := by omega
      have hcb : cur < 64 := by
        have h1 : (2:Nat) ^ bc ≤ 64 := by
          calc (2:Nat) ^ bc ≤ 2 ^ 6 := Nat.pow_le_pow_right (by norm_num) (by omega)
          _ = 64 := by norm_num
        omega
      have hsmall : 2 * cur + b.toNat < 256 := by omega
      rw [List.cons_append]
      simp only [noLenLoop]
      rw [if_neg hb1, Nat.mod_eq_of_lt hsmall]
      rw [ih h2 rest (2 * cur + b.toNat) (bc + 1) zc em (by omega)
        (by rw [pow_succ]; omega)]
      rfl

theorem loopChunks : ∀ (n : Nat) (bits : List Bool) (zc : Nat) (em : List Nat),
    bits.length ≤ n →
    noLenLoop bits 0 0 zc em =
      (match byteLoop (fullChunks bits) zc em with
       | .bEarly d => .early d
       | .bDone em2 => .done em2 (bitsToNat (chunkRest bits)) (chunkRest bits).length) := by
  intro n
  induction n with
  | zero =>
    intro bits zc em hn
    have hnil : bits = [] := List.eq_nil_of_length_eq_zero (by omega)
    subst hnil
    rfl
  | succ n ih =>
    intro bits zc em hn
    by_cases h8 : bits.length < 8
    · rw [fullChunks_small bits h8, chunkRest_small bits h8]
      have := noLenLoop_consumeTail bits 0 0 zc em (by omega) (by norm_num)
      rw [this, Nat.zero_add]
      rfl
    · push_neg at h8
      have hsplit : bits = bits.take 8 ++ bits.drop 8 := (List.take_append_drop 8 bits).symm
      have htk8 : (bits.take 8).length = 8 := by rw [List.length_take]; omega
      have hne : bits.take 8 ≠ [] := by
        intro hnil
        rw [hnil] at htk8
        simp at htk8
      have hcb := noLenLoop_consumeByte (bits.take 8) hne (bits.drop 8) 0 0 zc em
        (by rw [htk8]) (by norm_num)
      rw [fullChunks_step bits h8, chunkRest_step bits h8]
      conv_lhs => rw [hsplit]
      rw [hcb]
      have hB : bitsFold 0 (bits.take 8) = bitsToNat (bits.take 8) := rfl
      rw [hB]
      have hdlen : (bits.drop 8).length ≤ n := by rw [List.length_drop]; omega
      rw [byteLoop_cons]
      by_cases hBz : bitsToNat (bits.take 8) = 0
      · rw [if_pos hBz, if_pos hBz]
        by_cases hz : 20 ≤ zc + 1
        · rw [if_pos hz, if_pos hz]
        · rw [if_neg hz, if_neg hz]
          exact ih (bits.drop 8) (zc + 1) (em ++ [bitsToNat (bits.take 8)]) hdlen
      · rw [if_neg hBz, if_neg hBz]
        exact ih (bits.drop 8) 0 (em ++ [bitsToNat (bits.take 8)]) hdlen

theorem byteLoop_ff_none : ∀ (bs : List Nat) (zc : Nat) (em : List Nat), zc ≤ 19 →
    firstFire bs zc = none → byteLoop bs zc em = .bDone (em ++ bs) := by
  intro bs
  induction bs with
  | nil => intro zc em _ _; simp [byteLoop]
  | cons b rest ih =>
    intro zc em hzc hff
    rw [byteLoop_cons]
    by_cases hb : b = 0
    · subst hb
      rw [if_pos rfl]
      by_cases hz : 20 ≤ zc + 1
      · exfalso
        rw [show firstFire (0 :: rest) zc = some 0 by simp [firstFire, hz]] at hff
        exact Option.noConfusion hff
      · rw [if_neg hz]
        have hffr : firstFire rest (zc + 1) = none := by
          rw [show firstFire (0 :: rest) zc = (firstFire rest (zc + 1)).map (· + 1) by
            simp [firstFire, hz]] at hff
          cases hfr : firstFire rest (zc + 1) with
          | none => rfl
          | some k => rw [hfr] at hff; exact Option.noConfusion hff
        rw [ih (zc + 1) (em ++ [0]) (by omega) hffr, List.append_assoc]
        rfl
    · rw [if_neg hb]
      have hffr : firstFire rest 0 = none := by
        rw [show firstFire (b :: rest) zc = (firstFire rest 0).map (· + 1) by
          simp [firstFire, hb]] at hff
        cases hfr : firstFire rest 0 with
        | none => rfl
        | some k => rw [hfr] at hff; exact Option.noConfusion hff
      rw [ih 0 (em ++ [b]) (by omega) hffr, List.append_assoc]
      rfl

theorem byteLoop_ff_some : ∀ (bs : List Nat) (zc : Nat) (em : List Nat) (k : Nat), zc ≤ 19 →
    firstFire bs zc = some k →
    byteLoop bs zc em = .bEarly ((em ++ bs).take (em.length + k + 1 - 20)) := by
  intro bs
  induction bs with
  | nil => intro zc em k _ hff; exact Option.noConfusion hff
  | cons b rest ih =>
    intro zc em k hzc hff
    rw [byteLoop_cons]
    by_cases hb : b = 0
    · subst hb
      rw [if_pos rfl]
      by_cases hz : 20 ≤ zc + 1
      · rw [if_pos hz]
        have hk : k = 0 := by
          rw [show firstFire (0 :: rest) zc = some 0 by simp [firstFire, hz]] at hff
          exact (Option.some.inj hff).symm
        subst hk
        conv_rhs => rw [List.append_cons]
        rw [List.take_append_of_le_length
          (show em.length + 0 + 1 - 20 ≤ (em ++ [0]).length by
            rw [List.length_append, List.length_singleton]; omega)]
        rw [List.length_append, List.length_singleton]
      · rw [if_neg hz]
        have hk1 : ∃ k0, firstFire rest (zc + 1) = some k0 ∧ k = k0 + 1 := by
          rw [show firstFire (0 :: rest) zc = (firstFire rest (zc + 1)).map (· + 1) by
            simp [firstFire, hz]] at hff
          cases hfr : firstFire rest (zc + 1) with
          | none => rw [hfr] at hff; exact Option.noConfusion hff
          | some k0 => rw [hfr] at hff; exact ⟨k0, rfl, (Option.some.inj hff).symm⟩
        obtain ⟨k0, hfr, hk⟩ := hk1
        subst hk
        rw [ih (zc + 1) (em ++ [0]) k0 (by omega) hfr]
        rw [List.append_assoc, List.singleton_append, List.length_append,
          List.length_singleton]
        have hc : em.length + 1 + k0 + 1 - 20 = em.length + (k0 + 1) + 1 - 20 := by omega
        rw [hc]
    · rw [if_neg hb]
      have hk1 : ∃ k0, firstFire rest 0 = some k0 ∧ k = k0 + 1 := by
        rw [show firstFire (b :: rest) zc = (firstFire rest 0).map (· + 1) by
          simp [firstFire, hb]] at hff
        cases hfr : firstFire rest 0 with
        | none => rw [hfr] at hff; exact Option.noConfusion hff
        | some k0 => rw [hfr] at hff; exact ⟨k0, rfl, (Option.some.inj hff).symm⟩
      obtain ⟨k0, hfr, hk⟩ := hk1
      subst hk
      rw [ih 0 (em ++ [b]) k0 (by omega) hfr]
      rw [List.append_assoc, List.singleton_append, List.length_append,
        List.length_singleton]
      have hc : em.length + 1 + k0 + 1 - 20 = em.length + (k0 + 1) + 1 - 20 := by omega
      rw [hc]

theorem drop_append_plus {α : Type} (l1 l2 : List α) (k : Nat) :
    (l1 ++ l2).drop (l1.length + k) = l2.drop k := by
  induction l1 with
  | nil => simp
  | cons a t ih =>
    rw [List.cons_append, List.length_cons,
      show t.length + 1 + k = (t.length + k) + 1 by omega,
      List.drop_succ_cons]
    exact ih

theorem runAt_append_plus (l1 l2 : List Nat) (k : Nat) :
    runAt (l1 ++ l2) (l1.length + k) ↔ runAt l2 k := by
  unfold runAt
  rw [drop_append_plus]

theorem runAt_cons_succ (b : Nat) (l : List Nat) (j : Nat) :
    runAt (b :: l) (j + 1) ↔ runAt l j := Iff.rfl

theorem runAt_rep_append (zc : Nat) (l2 : List Nat) (k : Nat) :
    runAt (List.replicate zc 0 ++ l2) (zc + k) ↔ runAt l2 k := by
  have h := runAt_append_plus (List.replicate zc 0) l2 k
  rw [List.length_replicate] at h
  exact h

theorem runAt_length (l : List Nat) (j : Nat) (h : runAt l j) : j + 20 ≤ l.length := by
  have hl := congrArg List.length h
  rw [List.length_take, List.length_drop, List.length_replicate] at hl
  omega

theorem runAt_getElem (l : List Nat) (j : Nat) (h : runAt l j) :
    ∀ i, j ≤ i → i < j + 20 → l[i]? = some 0 := by
  intro i hji hi20
  have hlen := runAt_length l j h
  have h1 : l[i]? = (l.drop j)[i - j]? := by
    rw [List.getElem?_drop]
    congr 1
    omega
  have h2 : (l.drop j)[i - j]? = ((l.drop j).take 20)[i - j]? := by
    rw [List.getElem?_take]
    rw [if_pos (by omega)]
  rw [h1, h2, h]
  rw [List.getElem?_replicate]
  rw [if_pos (by omega)]

theorem runAt_of_getElem (l : List Nat) (j : Nat) (_hlen : j + 20 ≤ l.length)
    (h : ∀ i, j ≤ i → i < j + 20 → l[i]? = some 0) : runAt l j := by
  unfold runAt
  apply List.ext_getElem?
  intro k
  rw [List.getElem?_take, List.getElem?_replicate]
  by_cases hk : k < 20
  · rw [if_pos hk, if_pos hk, List.getElem?_drop]
    exact h (j + k) (by omega) (by omega)
  · rw [if_neg hk, if_neg hk]

theorem replicate_ctx_shift (zc : Nat) (rest : List Nat) :
    List.replicate (zc + 1) (0:Nat) ++ rest = List.replicate zc (0:Nat) ++ 0 :: rest := by
  rw [List.replicate_succ', List.append_assoc, List.singleton_append]

theorem runAt_rep20 (zc : Nat) (rest : List Nat) (hzc : zc = 19) :
    runAt (List.replicate zc (0:Nat) ++ 0 :: rest) 0 := by
  subst hzc
  rw [← replicate_ctx_shift]
  unfold runAt
  rw [List.drop_zero]
  have h := List.take_left (List.replicate 20 (0:Nat)) rest
  rw [List.length_replicate] at h
  exact h

theorem ffGenMain : ∀ (bs : List Nat) (zc j : Nat), zc ≤ 19 →
    runAt (List.replicate zc 0 ++ bs) j →
    (∀ i, i < j → ¬ runAt (List.replicate zc 0 ++ bs) i) →
    firstFire bs zc = some (j + 19 - zc) := by
  intro bs
  induction bs with
  | nil =>
    intro zc j hzc hrun _
    exfalso
    have := runAt_length _ _ hrun
    rw [List.append_nil, List.length_replicate] at this
    omega
  | cons b rest ih =>
    intro zc j hzc hrun hmin
    by_cases hb : b = 0
    · subst hb
      by_cases hz : 20 ≤ zc + 1
      · have hzc19 : zc = 19 := by omega
        have hr0 : runAt (List.replicate zc 0 ++ 0 :: rest) 0 := runAt_rep20 zc rest hzc19
        have hj0 : j = 0 := by
          by_contra hj
          exact hmin 0 (by omega) hr0
        subst hj0
        subst hzc19
        simp [firstFire, hz]
      · have hctx := replicate_ctx_shift zc rest
        rw [← hctx] at hrun hmin
        have hge : zc + 1 ≤ j + 19 := by omega
        have := ih (zc + 1) j (by omega) hrun hmin
        rw [show firstFire (0 :: rest) zc = (firstFire rest (zc + 1)).map (· + 1) by
          simp [firstFire, hz]]
        rw [this]
        show some (j + 19 - (zc + 1) + 1) = some (j + 19 - zc)
        congr 1
        omega
    · have hjzc : zc < j := by
        by_contra hle
        push_neg at hle
        have h0 := runAt_getElem _ _ hrun zc hle (by omega)
        have hb2 : (List.replicate zc (0:Nat) ++ b :: rest)[zc]? = some b := by
          rw [List.getElem?_append_right (by rw [List.length_replicate])]
          rw [List.length_replicate, Nat.sub_self]
          simp
        rw [hb2] at h0
        exact hb (Option.some.inj h0)
      obtain ⟨j2, rfl⟩ : ∃ j2, j = zc + 1 + j2 := ⟨j - zc - 1, by omega⟩
      have hrun2 : runAt rest j2 := by
        have h1 : runAt (List.replicate zc 0 ++ b :: rest) (zc + (1 + j2)) := by
          rw [show zc + (1 + j2) = zc + 1 + j2 by omega]
          exact hrun
        rw [runAt_rep_append] at h1
        rw [show 1 + j2 = j2 + 1 by omega] at h1
        exact (runAt_cons_succ b rest j2).mp h1
      have hmin2 : ∀ i, i < j2 → ¬ runAt rest i := by
        intro i hi hri
        apply hmin (zc + 1 + i) (by omega)
        have h1 : runAt (b :: rest) (i + 1) := (runAt_cons_succ b rest i).mpr hri
        have h2 : runAt (List.replicate zc 0 ++ b :: rest) (zc + (i + 1)) :=
          (runAt_rep_append zc (b :: rest) (i + 1)).mpr h1
        rw [show zc + 1 + i = zc + (i + 1) by omega]
        exact h2
      have := ih 0 j2 (by omega) (by rw [List.replicate_zero, List.nil_append]; exact hrun2)
        (by
          intro i hi
          rw [List.replicate_zero, List.nil_append]
          exact hmin2 i hi)
      rw [show firstFire (b :: rest) zc = (firstFire rest 0).map (· + 1) by
        simp [firstFire, hb]]
      rw [this]
      show some (j2 + 19 - 0 + 1) = some (zc + 1 + j2 + 19 - zc)
      congr 1
      omega

theorem ffNone : ∀ (bs : List Nat) (zc : Nat), zc ≤ 19 →
    (∀ j, ¬ runAt (List.replicate zc 0 ++ bs) j) →
    firstFire bs zc = none := by
  intro bs
  induction bs with
  | nil => intro zc _ _; rfl
  | cons b rest ih =>
    intro zc hzc hno
    by_cases hb : b = 0
    · subst hb
      by_cases hz : 20 ≤ zc + 1
      · exfalso
        exact hno 0 (runAt_rep20 zc rest (by omega))
      · have hctx := replicate_ctx_shift zc rest
        rw [show firstFire (0 :: rest) zc = (firstFire rest (zc + 1)).map (· + 1) by
          simp [firstFire, hz]]
        rw [ih (zc + 1) (by omega) (by rw [hctx]; exact hno)]
        rfl
    · rw [show firstFire (b :: rest) zc = (firstFire rest 0).map (· + 1) by
        simp [firstFire, hb]]
      have hno2 : ∀ j, ¬ runAt rest j := by
        intro j hrj
        apply hno (zc + (j + 1))
        exact (runAt_rep_append zc (b :: rest) (j + 1)).mpr ((runAt_cons_succ b rest j).mpr hrj)
      rw [ih 0 (by omega) (by
        intro j
        rw [List.replicate_zero, List.nil_append]
        exact hno2 j)]
      rfl

theorem dropWhile_append_all {α : Type} (p : α → Bool) (l1 l2 : List α)
    (h : ∀ x ∈ l1, p x = true) :
    (l1 ++ l2).dropWhile p = l2.dropWhile p := by
  induction l1 with
  | nil => simp
  | cons a t ih =>
    rw [List.cons_append, List.dropWhile_cons, if_pos (h a (by simp))]
    exact ih (fun x hx => h x (by simp [hx]))

theorem dropWhile_all {α : Type} (p : α → Bool) (l : List α)
    (h : ∀ x ∈ l, p x = true) : l.dropWhile p = [] := by
  have h2 := dropWhile_append_all p l [] h
  rw [List.append_nil] at h2
  rw [h2]
  rfl

theorem dropWhile_head_false {α : Type} (p : α → Bool) (l : List α) :
    ∀ x xs, l.dropWhile p = x :: xs → p x = false := by
  induction l with
  | nil => intro x xs h; exact List.noConfusion h
  | cons a t ih =>
    intro x xs h
    rw [List.dropWhile_cons] at h
    by_cases hp : p a = true
    · rw [if_pos hp] at h
      exact ih x xs h
    · rw [if_neg hp] at h
      have hx : a = x := (List.cons.inj h).1
      rw [← hx]
      exact Bool.not_eq_true _ ▸ (by simpa using hp)

theorem stripZeros_append_zeros (a b : List Nat) (h : ∀ x ∈ b, x = 0) :
    stripZeros (a ++ b) = stripZeros a := by
  unfold stripZeros
  rw [List.reverse_append]
  rw [dropWhile_append_all _ _ _ (by
    intro x hx
    rw [List.mem_reverse] at hx
    simp [h x hx])]

theorem stripZeros_getLast (a : List Nat) (v : Nat) (hl : a.getLast? = some v) (hv : v ≠ 0) :
    stripZeros a = a := by
  unfold stripZeros
  have hh : a.reverse.head? = some v := by rw [List.head?_reverse]; exact hl
  cases hrev : a.reverse with
  | nil => rw [hrev] at hh; exact Option.noConfusion hh
  | cons x t =>
    rw [hrev] at hh
    have hxv : x = v := by
      have : some x = some v := hh
      exact Option.some.inj this
    have hstep : List.dropWhile (fun y => y == 0) (x :: t) = x :: t := by
      rw [List.dropWhile_cons, if_neg (by simp [hxv, hv])]
    rw [hstep, ← hrev, List.reverse_reverse]

theorem stripZeros_all_zero (l : List Nat) (h : ∀ x ∈ l, x = 0) : stripZeros l = [] := by
  unfold stripZeros
  rw [dropWhile_all _ _ (by
    intro x hx
    rw [List.mem_reverse] at hx
    simp [h x hx])]
  rfl

theorem stripZeros_empty_or_last (l : List Nat) :
    stripZeros l = [] ∨ (stripZeros l).getLast? ≠ some 0 := by
  unfold stripZeros
  cases hd : l.reverse.dropWhile (fun x => x == 0) with
  | nil => left; rfl
  | cons x t =>
    right
    have hpx : (x == 0) = false := dropWhile_head_false _ _ x t hd
    have hx : x ≠ 0 := by simpa using hpx
    rw [List.getLast?_reverse]
    intro hcontra
    exact hx (Option.some.inj hcontra)

theorem runAt_front (l pad : List Nat) (j : Nat) (hlen : j + 20 ≤ l.length) :
    runAt (l ++ pad) j ↔ runAt l j := by
  constructor
  · intro h
    apply runAt_of_getElem _ _ hlen
    intro i h1 h2
    have h3 := runAt_getElem _ _ h i h1 h2
    rw [List.getElem?_append_left (by omega)] at h3
    exact h3
  · intro h
    apply runAt_of_getElem
    · rw [List.length_append]; omega
    · intro i h1 h2
      rw [List.getElem?_append_left (by omega)]
      exact runAt_getElem _ _ h i h1 h2

theorem byteLoop_done_eq (bs : List Nat) (zc : Nat) (em em2 : List Nat) (hzc : zc ≤ 19)
    (h : byteLoop bs zc em = .bDone em2) : em2 = em ++ bs := by
  cases hff : firstFire bs zc with
  | none =>
    rw [byteLoop_ff_none bs zc em hzc hff] at h
    exact (ByteOut.bDone.inj h).symm
  | some k =>
    rw [byteLoop_ff_some bs zc em k hzc hff] at h
    exact ByteOut.noConfusion h

theorem extract_eq_early (mask : ChannelMask) (order : BitOrder) (pixels : List Pixel)
    (d : List Nat)
    (h : byteLoop (fullChunks (gridBits mask order pixels)) 0 [] = .bEarly d) :
    extractLSBNoLength mask order pixels = d := by
  unfold extractLSBNoLength
  rw [loopChunks (gridBits mask order pixels).length (gridBits mask order pixels) 0 []
    (le_refl _), h]

theorem extract_eq_done (mask : ChannelMask) (order : BitOrder) (pixels : List Pixel)
    (em2 : List Nat)
    (h : byteLoop (fullChunks (gridBits mask order pixels)) 0 [] = .bDone em2) :
    extractLSBNoLength mask order pixels =
      stripZeros (packBytes (gridBits mask order pixels)) := by
  have hem : em2 = fullChunks (gridBits mask order pixels) := by
    have := byteLoop_done_eq _ 0 [] em2 (by omega) h
    rwa [List.nil_append] at this
  subst hem
  unfold extractLSBNoLength
  rw [loopChunks (gridBits mask order pixels).length (gridBits mask order pixels) 0 []
    (le_refl _), h]
  show stripZeros (if (chunkRest (gridBits mask order pixels)).length = 0 then _ else _) = _
  unfold packBytes
  by_cases h0 : (chunkRest (gridBits mask order pixels)).length = 0
  · rw [if_pos h0, if_pos h0, List.append_nil]
  · rw [if_neg h0, if_neg h0]

theorem extract_early_run (mask : ChannelMask) (order : BitOrder) (pixels : List Pixel)
    (j : Nat)
    (hrun : runAt (fullChunks (gridBits mask order pixels)) j)
    (hmin : ∀ i, i < j → ¬ runAt (fullChunks (gridBits mask order pixels)) i) :
    extractLSBNoLength mask order pixels =
      (fullChunks (gridBits mask order pixels)).take j := by
  have hctx : List.replicate 0 (0:Nat) ++ fullChunks (gridBits mask order pixels)
      = fullChunks (gridBits mask order pixels) := by simp
  have hff := ffGenMain (fullChunks (gridBits mask order pixels)) 0 j (by omega)
    (by rw [hctx]; exact hrun) (by intro i hi; rw [hctx]; exact hmin i hi)
  have hbl := byteLoop_ff_some (fullChunks (gridBits mask order pixels)) 0 [] (j + 19)
    (by omega) (by simpa using hff)
  rw [List.nil_append, List.length_nil] at hbl
  rw [show 0 + (j + 19) + 1 - 20 = j by omega] at hbl
  exact extract_eq_early mask order pixels _ hbl

theorem extract_no_run (mask : ChannelMask) (order : BitOrder) (pixels : List Pixel)
    (hno : ∀ i, ¬ runAt (fullChunks (gridBits mask order pixels)) i) :
    extractLSBNoLength mask order pixels =
      stripZeros (packBytes (gridBits mask order pixels)) := by
  have hctx : List.replicate 0 (0:Nat) ++ fullChunks (gridBits mask order pixels)
      = fullChunks (gridBits mask order pixels) := by simp
  have hff := ffNone (fullChunks (gridBits mask order pixels)) 0 (by omega)
    (by intro i; rw [hctx]; exact hno i)
  have hbl := byteLoop_ff_none (fullChunks (gridBits mask order pixels)) 0 [] (by omega) hff
  rw [List.nil_append] at hbl
  exact extract_eq_done mask order pixels _ hbl

theorem first_run_prev_nonzero (l : List Nat) (j : Nat) (hj : 0 < j)
    (hrun : runAt l j) (hmin : ∀ i, i < j → ¬ runAt l i) :
    l[j - 1]? ≠ some 0 := by
  intro h0
  apply hmin (j - 1) (by omega)
  apply runAt_of_getElem
  · have := runAt_length l j hrun
    omega
  · intro i hge hlt
    by_cases hij : i = j - 1
    · subst hij; exact h0
    · exact runAt_getElem l j hrun i (by omega) (by omega)

theorem getLast_take (l : List Nat) (j : Nat) (hj : 0 < j) (hle : j ≤ l.length) :
    (l.take j).getLast? = l[j - 1]? := by
  rw [List.getLast?_eq_getElem?, List.length_take,
    show min j l.length = j from by omega, List.getElem?_take, if_pos (by omega)]

theorem packBytes_split (bits : List Bool) :
    ∃ pad, packBytes bits = fullChunks bits ++ pad ∧ pad.length ≤ 1 := by
  refine ⟨_, rfl, ?_⟩
  by_cases h0 : (chunkRest bits).length = 0
  · rw [if_pos h0]
    simp
  · rw [if_neg h0]
    simp

/-- C3: if the packed byte sequence of the raster-scan bit-stream contains
a run of 20 consecutive zero bytes, `ExtractLSBNoLength` returns the prefix
of the packed bytes preceding the first such run; and if every packed byte
is zero it returns an empty result. -/
theorem c3_zero_run_termination :
    (∀ (mask : ChannelMask) (order : BitOrder) (pixels : List Pixel) (j : Nat),
      runAt (packBytes (gridBits mask order pixels)) j →
      (∀ i, i < j → ¬ runAt (packBytes (gridBits mask order pixels)) i) →
      extractLSBNoLength mask order pixels = (packBytes (gridBits mask order pixels)).take j) ∧
    (∀ (mask : ChannelMask) (order : BitOrder) (pixels : List Pixel),
      (∀ x ∈ packBytes (gridBits mask order pixels), x = 0) →
      extractLSBNoLength mask order pixels = []) := by
  constructor
  · intro mask order pixels j hrun hmin
    obtain ⟨pad, hsplit, hpadlen⟩ := packBytes_split (gridBits mask order pixels)
    by_cases hcase : j + 20 ≤ (fullChunks (gridBits mask order pixels)).length
    · have hrfc : runAt (fullChunks (gridBits mask order pixels)) j := by
        rw [hsplit] at hrun
        exact (runAt_front _ pad j hcase).mp hrun
      have hminfc : ∀ i, i < j → ¬ runAt (fullChunks (gridBits mask order pixels)) i := by
        intro i hi hri
        apply hmin i hi
        rw [hsplit]
        exact (runAt_front _ pad i (runAt_length _ i hri)).mpr hri
      rw [extract_early_run mask order pixels j hrfc hminfc, hsplit,
        List.take_append_of_le_length (by omega)]
    · have hjtot := runAt_length _ j hrun
      have hplen : (packBytes (gridBits mask order pixels)).length ≤
          (fullChunks (gridBits mask order pixels)).length + 1 := by
        rw [hsplit, List.length_append]
        omega
      have hno : ∀ i, ¬ runAt (fullChunks (gridBits mask order pixels)) i := by
        intro i hri
        have hl := runAt_length _ i hri
        apply hmin i (by omega)
        rw [hsplit]
        exact (runAt_front _ pad i hl).mpr hri
      have hres := extract_no_run mask order pixels hno
      have hdrop : (packBytes (gridBits mask order pixels)).drop j = List.replicate 20 0 := by
        have h1 : ((packBytes (gridBits mask order pixels)).drop j).take 20
            = List.replicate 20 0 := hrun
        rw [List.take_of_length_le (by rw [List.length_drop]; omega)] at h1
        exact h1
      have hsplit2 : packBytes (gridBits mask order pixels) =
          (packBytes (gridBits mask order pixels)).take j ++ List.replicate 20 0 := by
        rw [← hdrop]
        exact (List.take_append_drop j _).symm
      by_cases hj0 : j = 0
      · subst hj0
        have hallz : ∀ x ∈ packBytes (gridBits mask order pixels), x = 0 := by
          intro x hx
          rw [hsplit2] at hx
          rcases List.mem_append.mp hx with hx1 | hx2
          · rw [List.take_zero] at hx1
            exact absurd hx1 (List.not_mem_nil x)
          · exact List.eq_of_mem_replicate hx2
        rw [hres, stripZeros_all_zero _ hallz, List.take_zero]
      · have hjpos : 0 < j := by omega
        have hlt : j - 1 < (packBytes (gridBits mask order pixels)).length := by omega
        have hv := first_run_prev_nonzero _ j hjpos hrun hmin
        have hpv : (packBytes (gridBits mask order pixels))[j - 1]?
            = some ((packBytes (gridBits mask order pixels))[j - 1]) :=
          List.getElem?_eq_getElem hlt
        have hvne : (packBytes (gridBits mask order pixels))[j - 1] ≠ 0 := by
          intro hzero
          apply hv
          rw [hpv, hzero]
        have hlast : ((packBytes (gridBits mask order pixels)).take j).getLast?
            = some ((packBytes (gridBits mask order pixels))[j - 1]) := by
          rw [getLast_take _ j hjpos (by omega)]
          exact hpv
        have hstrip := stripZeros_getLast _ _ hlast hvne
        rw [hres]
        conv_lhs => rw [hsplit2]
        rw [stripZeros_append_zeros _ _ (fun x hx => List.eq_of_mem_replicate hx), hstrip]
  · intro mask order pixels hall
    obtain ⟨pad, hsplit, hpadlen⟩ := packBytes_split (gridBits mask order pixels)
    have hzfc : ∀ x ∈ fullChunks (gridBits mask order pixels), x = 0 := by
      intro x hx
      apply hall
      rw [hsplit]
      exact List.mem_append_left _ hx
    by_cases h20 : 20 ≤ (fullChunks (gridBits mask order pixels)).length
    · have hrep : fullChunks (gridBits mask order pixels) =
          List.replicate (fullChunks (gridBits mask order pixels)).length 0 :=
        List.eq_replicate_iff.mpr ⟨rfl, hzfc⟩
      have hr0 : runAt (fullChunks (gridBits mask order pixels)) 0 := by
        unfold runAt
        rw [List.drop_zero]
        conv_lhs => rw [hrep]
        rw [List.take_replicate]
        congr 1
        omega
      have hres := extract_early_run mask order pixels 0 hr0 (by intro i hi; omega)
      rw [hres, List.take_zero]
    · have hno : ∀ i, ¬ runAt (fullChunks (gridBits mask order pixels)) i := by
        intro i hri
        have := runAt_length _ i hri
        omega
      rw [extract_no_run mask order pixels hno, stripZeros_all_zero _ hall]

def c3Pixels : List Pixel :=
  [⟨0,0,0,0⟩, ⟨1,0,0,0⟩, ⟨0,0,0,0⟩, ⟨0,0,0,0⟩, ⟨0,0,0,0⟩, ⟨0,0,0,0⟩, ⟨0,0,0,0⟩, ⟨1,0,0,0⟩]
    ++ List.replicate 160 ⟨0,0,0,0⟩

/-- C3 witness: the byte 0x41 followed by twenty zero bytes terminates the
no-length extraction right after the 0x41. -/
theorem c3_witness :
    runAt (packBytes (gridBits ⟨1,0,0,0⟩ .lsbFirst c3Pixels)) 1 ∧
    extractLSBNoLength ⟨1,0,0,0⟩ .lsbFirst c3Pixels
      = (packBytes (gridBits ⟨1,0,0,0⟩ .lsbFirst c3Pixels)).take 1 :=
  ⟨by decide,
    c3_zero_run_termination.1 ⟨1,0,0,0⟩ .lsbFirst c3Pixels 1 (by decide) (by decide)⟩

/-- C10: the result of `ExtractLSBNoLength` is either empty or ends in a
non-zero byte — trailing zero bytes never survive, in either the zero-run
early exit or the final trailing-zero strip. -/
theorem c10_no_trailing_zeros (mask : ChannelMask) (order : BitOrder) (pixels : List Pixel) :
    extractLSBNoLength mask order pixels = [] ∨
    (extractLSBNoLength mask order pixels).getLast? ≠ some 0 := by
  by_cases hex : ∃ i, runAt (fullChunks (gridBits mask order pixels)) i
  · have hrun := Nat.find_spec hex
    have hmin : ∀ i, i < Nat.find hex → ¬ runAt (fullChunks (gridBits mask order pixels)) i :=
      fun i hi => Nat.find_min hex hi
    have hres := extract_early_run mask order pixels (Nat.find hex) hrun hmin
    by_cases hj0 : Nat.find hex = 0
    · left
      rw [hres, hj0, List.take_zero]
    · right
      have hjpos : 0 < Nat.find hex := by omega
      have hlen := runAt_length _ _ hrun
      rw [hres, getLast_take _ (Nat.find hex) hjpos (by omega)]
      exact first_run_prev_nonzero _ (Nat.find hex) hjpos hrun hmin
  · push_neg at hex
    rw [extract_no_run mask order pixels hex]
    exact stripZeros_empty_or_last _

/-! ## JPEG entropy-coded scan (`ExtractJPEGMetadata`, jpeg_analyzer.go
lines 199-238)

After the SOS header, the parser scans byte-by-byte: a byte that is not
0xFF is consumed as data; on 0xFF it reads the next byte; if that byte is
0x00 the pair is a stuffed literal and scanning continues; otherwise both
bytes are pushed back and the scan ends (the remaining stream starts at
the 0xFF).  On end of input the loop breaks with whatever was consumed.
`sosScan` returns the remaining byte stream when the loop exits. -/

def sosScan : List Nat → List Nat
  | [] => []
  | [_] => []
  | b :: n :: rest2 =>
    if b ≠ 255 then sosScan (n :: rest2)
    else if n = 0 then sosScan rest2
    else b :: n :: rest2

/-- C5 counterexample: the scan ends at `0xFF 0x01` although 0x01 < 0xC0,
so the entropy-coded region is *not* ended only at marker bytes ≥ 0xC0. -/
theorem c5_counterexample :
    sosScan [18, 255, 1, 99] = [255, 1, 99] ∧ (1 : Nat) < 0xC0 ∧ (1 : Nat) ≠ 0 := by
  refine ⟨rfl, by norm_num, by norm_num⟩

/-- C5 (amended): the scan consumes `0xFF 0x00` as one literal data byte
and continues; it ends the entropy-coded region at a 0xFF byte followed by
*any* non-zero byte (in particular `0xFF 0xD9` ends the scan); any byte
other than 0xFF is skipped as data. -/
theorem c5_stuffed_bytes :
    (∀ rest : List Nat, sosScan (255 :: 0 :: rest) = sosScan rest) ∧
    (∀ (n : Nat) (rest : List Nat), n ≠ 0 → sosScan (255 :: n :: rest) = 255 :: n :: rest) ∧
    (∀ (b : Nat) (rest : List Nat), b ≠ 255 → sosScan (b :: rest) = sosScan rest) := by
  refine ⟨fun rest => ?_, fun n rest hn => ?_, fun b rest hb => ?_⟩
  · simp [sosScan]
  · simp [sosScan, hn]
  · cases rest with
    | nil => rfl
    | cons n rest2 => simp [sosScan, hb]

/-- C5 witness: a stuffed `FF 00` is consumed while `FF D9` ends the scan. -/
theorem c5_witness :
    sosScan [255, 0, 7] = sosScan [7] ∧ sosScan [255, 217, 3] = [255, 217, 3] :=
  ⟨c5_stuffed_bytes.1 [7], c5_stuffed_bytes.2.1 217 [3] (by norm_num)⟩

/-! ## Appended data check (`CheckAppendedData`, jpeg_analyzer.go lines
477-494)

The function scans backward from index `len-2` for the EOI marker bytes
`0xFF 0xD9`; at the first (i.e. last-in-file) hit, it reports appended
data when at least one byte follows, else `(false, 0)`. -/

def isEOIAt (data : List Nat) (i : Nat) : Bool :=
  data[i]? == some 255 && data[i + 1]? == some 217

def eoiResult (data : List Nat) (i : Nat) : Bool × Nat :=
  if i + 2 < data.length then (true, data.length - (i + 2)) else (false, 0)

def scanEOI (data : List Nat) : Nat → Bool × Nat
  | 0 => if isEOIAt data 0 then eoiResult data 0 else (false, 0)
  | i + 1 => if isEOIAt data (i + 1) then eoiResult data (i + 1) else scanEOI data i

def checkAppendedData (data : List Nat) : Bool × Nat :=
  if data.length < 2 then (false, 0) else scanEOI data (data.length - 2)

/-- The specification-side description of C6: find the last occurrence of
`FF D9` (backward scan over all positions) and report the bytes after it. -/
def lastEOISpec (data : List Nat) : Bool × Nat :=
  match ((List.range data.length).reverse).find? (fun i => isEOIAt data i) with
  | some i => eoiResult data i
  | none => (false, 0)

theorem scanEOI_find (data : List Nat) :
    ∀ i, scanEOI data i =
      (match ((List.range (i + 1)).reverse).find? (fun k => isEOIAt data k) with
       | some k => eoiResult data k
       | none => (false, 0)) := by
  intro i
  induction i with
  | zero =>
    show (if isEOIAt data 0 then eoiResult data 0 else (false, 0)) = _
    by_cases h : isEOIAt data 0
    · rw [if_pos h]
      rw [show ((List.range 1).reverse).find? (fun k => isEOIAt data k) = some 0 by
        simp [List.find?, h]]
    · rw [if_neg h]
      rw [show ((List.range 1).reverse).find? (fun k => isEOIAt data k) = none by
        simp [List.find?, h]]
  | succ i ih =>
    show (if isEOIAt data (i + 1) then eoiResult data (i + 1) else scanEOI data i) = _
    have hrev : (List.range (i + 1 + 1)).reverse
        = (i + 1) :: (List.range (i + 1)).reverse := by
      rw [List.range_succ, List.reverse_append]
      rfl
    rw [hrev, List.find?_cons]
    by_cases h : isEOIAt data (i + 1)
    · rw [if_pos h, h]
    · rw [if_neg h]
      rw [show (isEOIAt data (i + 1) : Bool) = false from by simpa using h]
      exact ih

/-- C6: `CheckAppendedData` equals the backward-scan specification: it
reports `(true, n)` exactly when at least one byte follows the last
`FF D9` occurrence, with `n` the number of such bytes, and `(false, 0)`
otherwise. -/
theorem c6_appended_data (data : List Nat) : checkAppendedData data = lastEOISpec data := by
  unfold checkAppendedData lastEOISpec
  by_cases hlen : data.length < 2
  · rw [if_pos hlen]
    have hnone : ((List.range data.length).reverse).find? (fun i => isEOIAt data i) = none := by
      rw [List.find?_eq_none]
      intro i hi
      rw [List.mem_reverse, List.mem_range] at hi
      unfold isEOIAt
      have hn1 : data[i + 1]? = none := by
        rw [List.getElem?_eq_none_iff]
        omega
      rw [hn1]
      simp
    rw [hnone]
  · rw [if_neg hlen]
    push_neg at hlen
    rw [scanEOI_find data (data.length - 2)]
    have h2 : data.length - 2 + 1 + 1 = data.length := by omega
    have hr1 : (List.range (data.length - 2 + 1 + 1)).reverse
        = (data.length - 2 + 1) :: (List.range (data.length - 2 + 1)).reverse := by
      rw [List.range_succ, List.reverse_append]
      rfl
    have htop : isEOIAt data (data.length - 2 + 1) = false := by
      unfold isEOIAt
      have hn1 : data[data.length - 2 + 1 + 1]? = none := by
        rw [List.getElem?_eq_none_iff]
        omega
      rw [hn1]
      simp
    have hfind : ((List.range data.length).reverse).find? (fun i => isEOIAt data i)
        = ((List.range (data.length - 2 + 1)).reverse).find? (fun i => isEOIAt data i) := by
      conv_lhs => rw [← h2]
      rw [hr1, List.find?_cons]
      simp only [htop]
    rw [hfind]

/-! ## Per-channel LSB statistics (`AnalyzeLSBStatistics` / `analyzeChannel`,
statistical_analysis.go lines 29-162)

`AnalyzeLSBStatistics` collects, per channel, the LSB of the 16-bit channel
value (`r & 1`) of every pixel in raster order and hands the list to
`analyzeChannel`.  Real-valued statistics are modelled over `ℝ` with
`math.Log2 = Real.logb 2`; division by zero yields 0 in the `ℝ` model
(the Go float64 quotients at those points never feed the claims checked
here).  The `ZeroCount`/`OneCount` fields are never assigned by
`analyzeChannel` and keep their zero value. -/

structure ChannelStatistics where
  entropy : ℝ
  samples : Nat
  transitions : ℝ
  firstOrderBias : ℝ
  zeroCount : Nat
  oneCount : Nat

/-- Count adjacent positions `i ≥ 1` whose pair `(l[i-1], l[i])` satisfies
`p`. -/
def countAdj (p : Nat → Nat → Bool) : List Nat → Nat
  | [] => 0
  | [_] => 0
  | a :: b :: t => (if p a b then 1 else 0) + countAdj p (b :: t)

noncomputable def analyzeChannel (lsbValues : List Nat) : ChannelStatistics :=
  let ones := lsbValues.count 1
  let transitions := countAdj (fun a b => decide (a ≠ b)) lsbValues
  let pairs00 := countAdj (fun a b => ((a <<< 1) ||| b) == 0) lsbValues
  let pairs01 := countAdj (fun a b => ((a <<< 1) ||| b) == 1) lsbValues
  let pairs10 := countAdj (fun a b => ((a <<< 1) ||| b) == 2) lsbValues
  let pairs11 := countAdj (fun a b => ((a <<< 1) ||| b) == 3) lsbValues
  let totalPairs := pairs00 + pairs01 + pairs10 + pairs11
  let p1 : ℝ := (ones : ℝ) / (lsbValues.length : ℝ)
  let p0 : ℝ := 1 - p1
  { entropy := if 0 < p0 ∧ 0 < p1 then -p0 * Real.logb 2 p0 - p1 * Real.logb 2 p1 else 0
    samples := lsbValues.length
    transitions := (transitions : ℝ) / ((lsbValues.length - 1 : Nat) : ℝ)
    firstOrderBias :=
      if 0 < totalPairs then ((pairs00 + pairs11 : Nat) : ℝ) / (totalPairs : ℝ) else 0.5
    zeroCount := 0
    oneCount := 0 }

/-- The per-channel part of `AnalyzeLSBStatistics`: R, G and B LSB plane
statistics (the alpha channel is ignored by the Go code). -/
noncomputable def analyzeLSBChannels (pixels : List Pixel) :
    ChannelStatistics × ChannelStatistics × ChannelStatistics :=
  (analyzeChannel (pixels.map fun p => rgba16 p.r % 2),
   analyzeChannel (pixels.map fun p => rgba16 p.g % 2),
   analyzeChannel (pixels.map fun p => rgba16 p.b % 2))

theorem analyzeChannel_entropy_zero (l : List Nat) (h : ∀ x ∈ l, x = 0) :
    (analyzeChannel l).entropy = 0 := by
  have hones : l.count 1 = 0 := by
    rw [List.count_eq_zero]
    intro h1
    exact absurd (h 1 h1) (by norm_num)
  show (if 0 < 1 - (l.count 1 : ℝ) / (l.length : ℝ) ∧ 0 < (l.count 1 : ℝ) / (l.length : ℝ)
        then _ else 0) = 0
  rw [hones]
  norm_num

theorem count_zero_add_count_one (l : List Nat) (h : ∀ x ∈ l, x < 2) :
    l.length = l.count 0 + l.count 1 := by
  induction l with
  | nil => rfl
  | cons a t ih =>
    have ha : a = 0 ∨ a = 1 := by
      have := h a (by simp)
      omega
    have ht := ih (fun x hx => h x (by simp [hx]))
    rw [List.length_cons, List.count_cons, List.count_cons]
    rcases ha with rfl | rfl <;> simp <;> omega

theorem analyzeChannel_entropy_one (l : List Nat) (hne : l ≠ [])
    (h2 : ∀ x ∈ l, x < 2) (heq : l.count 1 = l.count 0) :
    (analyzeChannel l).entropy = 1 := by
  have hlen : l.length = 2 * l.count 1 := by
    have := count_zero_add_count_one l h2
    omega
  have hpos : 0 < l.length := List.length_pos.mpr hne
  have hcpos : 0 < l.count 1 := by omega
  have hc : ((l.count 1 : ℝ)) ≠ 0 := by
    exact_mod_cast Nat.pos_iff_ne_zero.mp hcpos
  have hp1 : (l.count 1 : ℝ) / (l.length : ℝ) = 1 / 2 := by
    rw [hlen]
    push_cast
    field_simp
    ring
  show (if 0 < 1 - (l.count 1 : ℝ) / (l.length : ℝ) ∧ 0 < (l.count 1 : ℝ) / (l.length : ℝ)
        then -(1 - (l.count 1 : ℝ) / (l.length : ℝ)) *
              Real.logb 2 (1 - (l.count 1 : ℝ) / (l.length : ℝ)) -
             (l.count 1 : ℝ) / (l.length : ℝ) *
              Real.logb 2 ((l.count 1 : ℝ) / (l.length : ℝ))
        else 0) = 1
  rw [hp1]
  rw [if_pos (by norm_num)]
  have hhalf : (1 : ℝ) - 1 / 2 = 1 / 2 := by norm_num
  rw [hhalf, one_div, Real.logb_inv, Real.logb_self_eq_one (by norm_num)]
  norm_num

/-- C7: on an image whose channel LSB planes are all zero, every channel's
LSB entropy is exactly 0; on an image whose channel LSB planes contain
equally many zeros and ones, every channel's LSB entropy is exactly 1. -/
theorem c7_entropy_bounds :
    (∀ pixels : List Pixel,
      (∀ p ∈ pixels, p.r % 2 = 0 ∧ p.g % 2 = 0 ∧ p.b % 2 = 0) →
      (analyzeLSBChannels pixels).1.entropy = 0 ∧
      (analyzeLSBChannels pixels).2.1.entropy = 0 ∧
      (analyzeLSBChannels pixels).2.2.entropy = 0) ∧
    (∀ pixels : List Pixel, pixels ≠ [] →
      ((pixels.map fun p => rgba16 p.r % 2).count 1 = (pixels.map fun p => rgba16 p.r % 2).count 0) →
      ((pixels.map fun p => rgba16 p.g % 2).count 1 = (pixels.map fun p => rgba16 p.g % 2).count 0) →
      ((pixels.map fun p => rgba16 p.b % 2).count 1 = (pixels.map fun p => rgba16 p.b % 2).count 0) →
      (analyzeLSBChannels pixels).1.entropy = 1 ∧
      (analyzeLSBChannels pixels).2.1.entropy = 1 ∧
      (analyzeLSBChannels pixels).2.2.entropy = 1) := by
  constructor
  · intro pixels hall
    refine ⟨?_, ?_, ?_⟩ <;>
      apply analyzeChannel_entropy_zero <;>
      intro x hx <;>
      obtain ⟨p, hp, rfl⟩ := List.mem_map.mp hx <;>
      rw [rgba16_mod_two]
    · exact (hall p hp).1
    · exact (hall p hp).2.1
    · exact (hall p hp).2.2
  · intro pixels hne hr hg hb
    have hmapne : ∀ f : Pixel → Nat, pixels.map f ≠ [] := by
      intro f hcontra
      exact hne (List.map_eq_nil_iff.mp hcontra)
    refine ⟨?_, ?_, ?_⟩
    · exact analyzeChannel_entropy_one _ (hmapne _)
        (by
          intro x hx
          obtain ⟨p, _, rfl⟩ := List.mem_map.mp hx
          exact Nat.mod_lt _ (by norm_num)) hr
    · exact analyzeChannel_entropy_one _ (hmapne _)
        (by
          intro x hx
          obtain ⟨p, _, rfl⟩ := List.mem_map.mp hx
          exact Nat.mod_lt _ (by norm_num)) hg
    · exact analyzeChannel_entropy_one _ (hmapne _)
        (by
          intro x hx
          obtain ⟨p, _, rfl⟩ := List.mem_map.mp hx
          exact Nat.mod_lt _ (by norm_num)) hb

/-- C7 witness: a single even black pixel gives entropy 0 in each channel;
two pixels with alternating LSBs give entropy 1 in each channel. -/
theorem c7_witness :
    (analyzeLSBChannels [⟨0, 0, 0, 255⟩]).1.entropy = 0 ∧
    (analyzeLSBChannels [⟨0, 0, 0, 255⟩, ⟨1, 1, 1, 255⟩]).1.entropy = 1 :=
  ⟨(c7_entropy_bounds.1 [⟨0, 0, 0, 255⟩] (by decide)).1,
   (c7_entropy_bounds.2 [⟨0, 0, 0, 255⟩, ⟨1, 1, 1, 255⟩] (by decide)
      (by decide) (by decide) (by decide)).1⟩

/-! ## Finding aggregation (`AddFinding`, types.go lines 3-49)

`DetectionLevel` is an ordered enum (Clean < Suspicious < ConfirmedC2,
the Go iota values 0/1/2); `AddFinding` appends a finding and raises the
result's overall level when the new finding's level is strictly higher.
A fresh `ScanResult` has the zero value `Clean`. -/

inductive DetectionLevel where
  | clean
  | suspicious
  | confirmedC2
deriving DecidableEq, Repr

def DetectionLevel.toNat : DetectionLevel → Nat
  | .clean => 0
  | .suspicious => 1
  | .confirmedC2 => 2

structure Finding where
  description : String
  confidence : Int
  level : DetectionLevel
  details : String
deriving DecidableEq, Repr

structure ScanResult where
  filename : String
  findings : List Finding
  level : DetectionLevel
deriving DecidableEq, Repr

def emptyScanResult (name : String) : ScanResult := ⟨name, [], .clean⟩

def addFinding (r : ScanResult) (desc : String) (conf : Int) (lvl : DetectionLevel)
    (det : String) : ScanResult :=
  { r with
    findings := r.findings ++ [⟨desc, conf, lvl, det⟩]
    level := if r.level.toNat < lvl.toNat then lvl else r.level }

def maxLevel (a b : DetectionLevel) : DetectionLevel :=
  if a.toNat < b.toNat then b else a

/-- One `AddFinding` call as a fold step over call tuples. -/
def addFindingStep (r : ScanResult) (c : String × Int × DetectionLevel × String) : ScanResult :=
  addFinding r c.1 c.2.1 c.2.2.1 c.2.2.2

theorem addFinding_findings (r : ScanResult) (desc : String) (conf : Int)
    (lvl : DetectionLevel) (det : String) :
    (addFinding r desc conf lvl det).findings = r.findings ++ [⟨desc, conf, lvl, det⟩] := rfl

theorem addFinding_level (r : ScanResult) (desc : String) (conf : Int)
    (lvl : DetectionLevel) (det : String) :
    (addFinding r desc conf lvl det).level = maxLevel r.level lvl := rfl

theorem foldl_addFinding_findings (calls : List (String × Int × DetectionLevel × String)) :
    ∀ r : ScanResult,
      (calls.foldl addFindingStep r).findings =
        r.findings ++ calls.map (fun c => ⟨c.1, c.2.1, c.2.2.1, c.2.2.2⟩) := by
  induction calls with
  | nil => intro r; simp
  | cons c t ih =>
    intro r
    rw [List.foldl_cons, ih, List.map_cons]
    show (addFinding r c.1 c.2.1 c.2.2.1 c.2.2.2).findings ++ _ = _
    rw [addFinding_findings, List.append_assoc, List.singleton_append]

theorem foldl_addFinding_level (calls : List (String × Int × DetectionLevel × String)) :
    ∀ r : ScanResult,
      (calls.foldl addFindingStep r).level =
        (calls.map (fun c => c.2.2.1)).foldl maxLevel r.level := by
  induction calls with
  | nil => intro r; rfl
  | cons c t ih =>
    intro r
    rw [List.foldl_cons, ih, List.map_cons, List.foldl_cons]
    rfl

theorem maxLevel_le_left (a b : DetectionLevel) : a.toNat ≤ (maxLevel a b).toNat := by
  unfold maxLevel
  by_cases h : a.toNat < b.toNat
  · rw [if_pos h]; omega
  · rw [if_neg h]

theorem maxLevel_le_right (a b : DetectionLevel) : b.toNat ≤ (maxLevel a b).toNat := by
  unfold maxLevel
  by_cases h : a.toNat < b.toNat
  · rw [if_pos h]
  · rw [if_neg h]; omega

theorem le_foldl_maxLevel (ls : List DetectionLevel) :
    ∀ acc : DetectionLevel, acc.toNat ≤ (ls.foldl maxLevel acc).toNat := by
  induction ls with
  | nil => intro acc; exact le_refl _
  | cons a t ih =>
    intro acc
    calc acc.toNat ≤ (maxLevel acc a).toNat := maxLevel_le_left acc a
    _ ≤ (t.foldl maxLevel (maxLevel acc a)).toNat := ih (maxLevel acc a)

theorem mem_le_foldl_maxLevel (ls : List DetectionLevel) :
    ∀ (acc : DetectionLevel) (x : DetectionLevel), x ∈ ls →
      x.toNat ≤ (ls.foldl maxLevel acc).toNat := by
  induction ls with
  | nil => intro acc x hx; exact absurd hx (List.not_mem_nil x)
  | cons a t ih =>
    intro acc x hx
    rw [List.foldl_cons]
    rcases List.mem_cons.mp hx with rfl | hx2
    · calc x.toNat ≤ (maxLevel acc x).toNat := maxLevel_le_right acc x
      _ ≤ _ := le_foldl_maxLevel t (maxLevel acc x)
    · exact ih (maxLevel acc a) x hx2

/-- C8: after any sequence of `AddFinding` calls on an initially empty
`ScanResult`, the overall level is the fold of `max` over the recorded
findings' levels (with `Clean` as the bottom), every recorded finding's
level is bounded by the overall level, and a single `AddFinding` call
never lowers the overall level. -/
theorem c8_monotonic_severity :
    (∀ (calls : List (String × Int × DetectionLevel × String)) (name : String),
      (calls.foldl addFindingStep (emptyScanResult name)).level =
        ((calls.foldl addFindingStep (emptyScanResult name)).findings.map
          Finding.level).foldl maxLevel .clean) ∧
    (∀ (calls : List (String × Int × DetectionLevel × String)) (name : String),
      ∀ f ∈ (calls.foldl addFindingStep (emptyScanResult name)).findings,
        f.level.toNat ≤ (calls.foldl addFindingStep (emptyScanResult name)).level.toNat) ∧
    (∀ (r : ScanResult) (desc : String) (conf : Int) (lvl : DetectionLevel) (det : String),
      r.level.toNat ≤ (addFinding r desc conf lvl det).level.toNat) := by
  refine ⟨?_, ?_, ?_⟩
  · intro calls name
    rw [foldl_addFinding_level, foldl_addFinding_findings]
    show _ = ((([] : List Finding) ++ _).map Finding.level).foldl maxLevel .clean
    rw [List.nil_append, List.map_map]
    rfl
  · intro calls name f hf
    rw [foldl_addFinding_findings] at hf
    rw [show (emptyScanResult name).findings = [] from rfl, List.nil_append] at hf
    obtain ⟨c, hc, rfl⟩ := List.mem_map.mp hf
    rw [foldl_addFinding_level]
    exact mem_le_foldl_maxLevel _ _ _ (List.mem_map.mpr ⟨c, hc, rfl⟩)
  · intro r desc conf lvl det
    rw [addFinding_level]
    exact maxLevel_le_left r.level lvl

/-! ## Findings filter (`filterFindings`, scanner part_008 lines 592-670)

Go strings are modelled as Lean `String`s; `strings.Contains` /
`strings.ToLower` become substring search / character-wise lowering over
the underlying character lists (identical on ASCII input).
`extractEntropyValue` applies the regex `entropy=(\d+\.\d+)` and parses
the capture; the decimal is modelled exactly as a rational. -/

def strStarts : List Char → List Char → Bool
  | _, [] => true
  | [], _ :: _ => false
  | a :: as, b :: bs => a == b && strStarts as bs

def strHas : List Char → List Char → Bool
  | [], needle => needle.isEmpty
  | a :: as, needle => strStarts (a :: as) needle || strHas as needle

def goContains (s sub : String) : Bool := strHas s.toList sub.toList

def goToLower (s : String) : String := String.mk (s.toList.map Char.toLower)

def digitsToNat (ds : List Char) : Nat :=
  ds.foldl (fun a c => 10 * a + (c.toNat - 48)) 0

/-- Parse `\d+\.\d+` at the head of the list, as an exact rational. -/
def parseDecimal (l : List Char) : Option ℚ :=
  let ip := l.takeWhile Char.isDigit
  if ip.isEmpty then none
  else
    match l.drop ip.length with
    | '.' :: rest2 =>
      let fp := rest2.takeWhile Char.isDigit
      if fp.isEmpty then none
      else some ((digitsToNat ip : ℚ) + (digitsToNat fp : ℚ) / (10 : ℚ) ^ fp.length)
    | _ => none

/-- Leftmost match of `entropy=(\d+\.\d+)`: the capture's value. -/
def findEntropy : List Char → Option ℚ
  | [] => none
  | c :: cs =>
    if strStarts (c :: cs) "entropy=".toList then
      match parseDecimal ((c :: cs).drop 8) with
      | some q => some q
      | none => findEntropy cs
    else findEntropy cs

def extractEntropyValue (text : String) : ℚ :=
  match findEntropy text.toList with
  | some q => q
  | none => 0

def strongIndicators : List String :=
  ["shell", "password", "secret", "admin",
   "http://", "https://", "ftp://",
   ".exe", ".dll", ".sh", ".cmd"]

def containsStrongIndicators (details : String) : Bool :=
  let d := goToLower details
  strongIndicators.any (fun ind => goContains d ind) ||
    (goContains d "entropy" && decide ((79 : ℚ) / 10 < extractEntropyValue d))

def commonPatterns : List String :=
  ["slight variation in LSB",
   "minor statistical anomaly",
   "low entropy distribution",
   "standard JPEG pattern"]

def isCommonPattern (description details : String) : Bool :=
  let text := goToLower (description ++ " " ++ details)
  commonPatterns.any (fun p => goContains text (goToLower p))

/-- The loop body of `filterFindings` keeps `f` exactly when no `continue`
fires: an LSB finding needs confidence ≥ 9 and strong indicators, and no
finding matching a common pattern survives. -/
def keepFinding (f : Finding) : Bool :=
  (if goContains f.description "LSB" then
     decide (9 ≤ f.confidence) && containsStrongIndicators f.details
   else true) &&
  !isCommonPattern f.description f.details

def filterFindings (findings : List Finding) : List Finding :=
  findings.filter keepFinding

theorem keepFinding_iff (f : Finding) :
    keepFinding f = true ↔
      (goContains f.description "LSB" = true →
        9 ≤ f.confidence ∧ containsStrongIndicators f.details = true) ∧
      isCommonPattern f.description f.details = false := by
  unfold keepFinding
  cases h : goContains f.description "LSB" with
  | false =>
    rw [if_neg (by simp [h])]
    simp
  | true =>
    rw [if_pos rfl]
    simp [Bool.and_eq_true, decide_eq_true_iff, and_assoc]

/-- C9 counterexample: an LSB finding with confidence 5 whose details are
the strong-indicator token `password` is nevertheless removed — the
confidence-below-9 `continue` fires before the strong-indicator check is
ever reached, so no below-9 LSB finding survives. -/
theorem c9_counterexample :
    containsStrongIndicators "password" = true ∧
    goContains "LSB data detected" "LSB" = true ∧
    (5 : Int) < 9 ∧
    filterFindings [⟨"LSB data detected", 5, .suspicious, "password"⟩] = [] :=
  ⟨rfl, rfl, by decide, rfl⟩

/-- C9 (amended): `filterFindings` keeps a finding iff it is either
non-LSB or has both confidence ≥ 9 and strong indicators in its details,
and additionally matches no common pattern; below-9 LSB findings are
removed unconditionally, strong indicators notwithstanding. Surviving
findings are returned unchanged and in order (the output is a sublist of
the input). -/
theorem c9_filter_findings (findings : List Finding) :
    (∀ f ∈ findings,
      (f ∈ filterFindings findings ↔
        (goContains f.description "LSB" = true →
          9 ≤ f.confidence ∧ containsStrongIndicators f.details = true) ∧
        isCommonPattern f.description f.details = false)) ∧
    (filterFindings findings).Sublist findings := by
  constructor
  · intro f hf
    rw [← keepFinding_iff]
    unfold filterFindings
    rw [List.mem_filter]
    exact ⟨fun h => h.2, fun h => ⟨hf, h⟩⟩
  · exact List.filter_sublist _

/-- C9 witness: a high-confidence LSB finding with a URL indicator in its
details passes the filter. -/
theorem c9_witness :
    (⟨"LSB extraction", 9, .suspicious, "found http://x"⟩ : Finding) ∈
      filterFindings [⟨"LSB extraction", 9, .suspicious, "found http://x"⟩] :=
  ((c9_filter_findings [⟨"LSB extraction", 9, .suspicious, "found http://x"⟩]).1
      _ (List.mem_singleton.mpr rfl)).mpr
    ⟨fun _ => ⟨by decide, rfl⟩, rfl⟩

/-! ## Brute-force search (`BruteForceLSB`, lsb_extractor.go lines 285-402)

Float conditions (`ComputeEntropy(data) > 6.5`) are modelled over ℝ with
classical decidability; every concrete evaluation below short-circuits
before reaching them. The third-tier loops are fuelled: `none` means the
fuel ran out with the loops still running, for every fuel amount — i.e.
the function never returns. The inner loop's condition is translated
verbatim from the source (`for bBits := 0; gBits <= 2; bBits++`). -/

def isASCIIPrintable (data : List Nat) : Bool :=
  if data.length = 0 then false
  else
    let printableCount :=
      (data.filter (fun b => (32 ≤ b ∧ b ≤ 126) ∨ b = 10 ∨ b = 13 ∨ b = 9)).length
    -- `float64(printableCount)/float64(len) > 0.8`, written exactly
    decide (4 * data.length < 5 * printableCount)

noncomputable def computeEntropy (data : List Nat) : ℝ :=
  if data.length = 0 then 0
  else
    (Finset.range 256).sum fun i =>
      if 0 < data.count i then
        -((data.count i : ℝ) / data.length * Real.logb 2 ((data.count i : ℝ) / data.length))
      else 0

open Classical in
/-- `IsASCIIPrintable(data) || ComputeEntropy(data) > 6.5`. -/
noncomputable def acceptData (data : List Nat) : Bool :=
  isASCIIPrintable data || decide ((13 : ℝ) / 2 < computeEntropy data)

structure BruteForceResult where
  mask : ChannelMask
  order : BitOrder
  data : List Nat
deriving DecidableEq, Repr

def commonMasks : List ChannelMask :=
  [⟨1, 0, 0, 0⟩, ⟨0, 1, 0, 0⟩, ⟨0, 0, 1, 0⟩, ⟨1, 1, 1, 0⟩]

def bothOrders : List BitOrder := [.lsbFirst, .msbFirst]

/-- First pass: common masks with the length-prefixed protocol. -/
noncomputable def tier1A (pixels : List Pixel) : List BruteForceResult :=
  commonMasks.foldl (fun acc mask =>
    bothOrders.foldl (fun acc2 order =>
      match extractData mask order pixels with
      | .ok data =>
        if decide (0 < data.length) && acceptData data then
          acc2 ++ [⟨mask, order, data⟩]
        else acc2
      | .error _ => acc2) acc) []

/-- The no-length attempt shared by the second pass and the third tier:
appends unless the extracted bytes duplicate an earlier result. -/
noncomputable def tryNoLen (pixels : List Pixel) (mask : ChannelMask) (order : BitOrder)
    (acc : List BruteForceResult) : List BruteForceResult :=
  let data := extractLSBNoLength mask order pixels
  if decide (10 < data.length) && acceptData data then
    if acc.any (fun r => r.data == data) then acc else acc ++ [⟨mask, order, data⟩]
  else acc

/-- Second pass: common masks with the no-length protocol, deduplicated. -/
noncomputable def tier1B (pixels : List Pixel) (init : List BruteForceResult) :
    List BruteForceResult :=
  commonMasks.foldl (fun acc mask =>
    bothOrders.foldl (fun acc2 order => tryNoLen pixels mask order acc2) acc) init

noncomputable def tier1 (pixels : List Pixel) : List BruteForceResult :=
  tier1B pixels (tier1A pixels)

/-- Third-tier body for one order: length-prefixed first (`continue` on
acceptance), then the no-length attempt. -/
noncomputable def tryOrder (pixels : List Pixel) (mask : ChannelMask) (order : BitOrder)
    (acc : List BruteForceResult) : List BruteForceResult :=
  match extractData mask order pixels with
  | .ok data =>
    if decide (0 < data.length) && acceptData data then acc ++ [⟨mask, order, data⟩]
    else tryNoLen pixels mask order acc
  | .error _ => tryNoLen pixels mask order acc

/-- Third-tier loop body for one (rBits, gBits, bBits) combination:
skip already-tested combinations and the all-zero mask, then try both
orders. -/
noncomputable def tier2Body (pixels : List Pixel) (r g b : Nat)
    (acc : List BruteForceResult) : List BruteForceResult :=
  if (r = 1 ∧ g = 0 ∧ b = 0) ∨ (r = 0 ∧ g = 1 ∧ b = 0) ∨
      (r = 0 ∧ g = 0 ∧ b = 1) ∨ (r = 1 ∧ g = 1 ∧ b = 1) then acc
  else if r + g + b = 0 then acc
  else bothOrders.foldl (fun a o => tryOrder pixels ⟨r, g, b, 0⟩ o a) acc

/-- The innermost loop, verbatim: `for bBits := 0; gBits <= 2; bBits++`.
The continuation condition reads `gBits`, which the loop never changes. -/
noncomputable def tier2B (pixels : List Pixel) :
    Nat → Nat → Nat → Nat → List BruteForceResult → Option (List BruteForceResult)
  | 0, _, _, _, _ => none
  | fuel + 1, r, g, b, acc =>
    if g ≤ 2 then tier2B pixels fuel r g (b + 1) (tier2Body pixels r g b acc)
    else some acc

/-- The middle loop: `for gBits := 0; gBits <= 2; gBits++`. -/
noncomputable def tier2G (pixels : List Pixel) :
    Nat → Nat → Nat → List BruteForceResult → Option (List BruteForceResult)
  | 0, _, _, _ => none
  | fuel + 1, r, g, acc =>
    if g ≤ 2 then
      match tier2B pixels fuel r g 0 acc with
      | none => none
      | some acc2 => tier2G pixels fuel r (g + 1) acc2
    else some acc

/-- The outer loop: `for rBits := 0; rBits <= 2; rBits++`. -/
noncomputable def tier2R (pixels : List Pixel) :
    Nat → Nat → List BruteForceResult → Option (List BruteForceResult)
  | 0, _, _ => none
  | fuel + 1, r, acc =>
    if r ≤ 2 then
      match tier2G pixels fuel r 0 acc with
      | none => none
      | some acc2 => tier2R pixels fuel (r + 1) acc2
    else some acc

/-- `BruteForceLSB`: the third tier runs only when the first two passes
found nothing. -/
noncomputable def bruteForceLSB (fuel : Nat) (pixels : List Pixel) :
    Option (List BruteForceResult) :=
  let res := tier1 pixels
  if res.length = 0 then tier2R pixels fuel 0 [] else some res

theorem tier2B_none (pixels : List Pixel) :
    ∀ fuel r g b acc, g ≤ 2 → tier2B pixels fuel r g b acc = none := by
  intro fuel
  induction fuel with
  | zero => intro r g b acc _; rfl
  | succ n ih =>
    intro r g b acc hg
    show (if g ≤ 2 then _ else _) = none
    rw [if_pos hg]
    exact ih r g (b + 1) _ hg

theorem tier2G_none (pixels : List Pixel) :
    ∀ fuel r g acc, g ≤ 2 → tier2G pixels fuel r g acc = none := by
  intro fuel
  cases fuel with
  | zero => intro r g acc _; rfl
  | succ n =>
    intro r g acc hg
    show (if g ≤ 2 then
            match tier2B pixels n r g 0 acc with
            | none => none
            | some acc2 => tier2G pixels n r (g + 1) acc2
          else some acc) = none
    rw [if_pos hg, tier2B_none pixels n r g 0 acc hg]

/-- A 1×1 opaque black image: one pixel with all channel samples 0 and
alpha 255. -/
def c4Pixels : List Pixel := [⟨0, 0, 0, 255⟩]

theorem c4_tier1_empty : tier1 c4Pixels = [] := rfl

/-- C4: on a 1×1 opaque black image the first two (common-mask) passes
accept nothing, so the third tier is entered; its innermost loop's
continuation condition tests `gBits` instead of `bBits` and therefore
never becomes false, so `BruteForceLSB` never returns, for every fuel
bound — it does not perform the claimed exhaustive finite enumeration of
the R/G/B bit counts in [0,2]. -/
theorem c4_brute_force_diverges :
    tier1 c4Pixels = [] ∧ ∀ fuel : Nat, bruteForceLSB fuel c4Pixels = none := by
  constructor
  · rfl
  · intro fuel
    have h : bruteForceLSB fuel c4Pixels = tier2R c4Pixels fuel 0 [] := by
      show (if (tier1 c4Pixels).length = 0 then tier2R c4Pixels fuel 0 []
            else some (tier1 c4Pixels)) = tier2R c4Pixels fuel 0 []
      rw [c4_tier1_empty]
      rfl
    rw [h]
    cases fuel with
    | zero => rfl
    | succ n =>
      show (if (0 : Nat) ≤ 2 then
              match tier2G c4Pixels n 0 0 [] with
              | none => none
              | some acc2 => tier2R c4Pixels n 1 acc2
            else some []) = none
      rw [if_pos (by omega), tier2G_none c4Pixels n 0 0 [] (by omega)]
